import Mathlib

/-!
Shallow embedding of the Hyperion storage engine (arena + open-addressed
index + store orchestrator) and proofs about its operations.

The embedding follows the C++ sources:
* `Arena` models `arena.hpp`: a bump allocator with a 32-bit cursor that
  wraps modulo `2^32` (the C++ `fetch_add` on `std::uint32_t`).  The byte
  region is modelled as an association list from allocation offsets to the
  entry records written there (entries are written exactly once per offset
  in normal operation; a later write to the same offset shadows the old
  one, as the list is consed at the front).
* `Slot` / `Index` model `index.hpp`: fixed-capacity linear-probing table,
  `find` is the bounded probe loop with tombstone recycling, `hash` is
  32-bit FNV-1a, `next_pow2` the bit-smearing trick on `uint32`.
* `Hyperion` models `hyperion.hpp`: `put`, `get`, `del`.  The seqlock is
  the identity in the single-threaded semantics considered here (its
  `write`/`read` just apply the function to the protected index).

Machine integers are `Nat` with explicit `% 2^32` where the C++ does
32-bit wrapping arithmetic, and explicit `% 256` / `% 65536` truncations
where the C++ narrows to `uint8` / `uint16`.
-/

/-- `Status` return codes of the store (`hyperion.hpp`). -/
inductive Status where
  | OK
  | KeyTooLong
  | ValTooLong
  | ArenaFull
  | NotFound
deriving DecidableEq, Repr

/-- Entry record written into the arena: header fields `klen`, `vlen`,
`hash` (as written, i.e. already truncated to their C++ widths) followed by
the key bytes and value bytes (`EntryHeader` plus the two `memcpy`s in
`Hyperion::put`). -/
structure EntryRec where
  klen : Nat
  vlen : Nat
  hash : Nat
  key : List Nat
  val : List Nat
deriving DecidableEq, Repr

/-- The arena (`arena.hpp`): fixed byte capacity `size`, the 32-bit
allocation cursor, and the records written at their offsets (most recent
first). -/
structure Arena where
  size : Nat
  cursor : Nat
  entries : List (Nat × EntryRec)
deriving DecidableEq, Repr

/-- `Arena::alloc`: bump the cursor by `sz` (32-bit wrap, the cursor
advances even on failure), fail when the advanced cursor passed the end. -/
def Arena.alloc (a : Arena) (sz : Nat) : Arena × Option Nat :=
  let old := a.cursor
  let a2 : Arena := { a with cursor := (old + sz) % 4294967296 }
  if a.size < (old + sz) % 4294967296 then (a2, none) else (a2, some old)

/-- Reading the record at an offset (`Arena::ptr_at` followed by
interpreting the bytes as an `EntryHeader` record). -/
def Arena.entryAt (a : Arena) (off : Nat) : Option EntryRec :=
  a.entries.lookup off

/-- An index slot (`index.hpp`).  `offset = 0xFFFFFFFF` is `EMPTY`,
`0xFFFFFFFE` is `TOMBSTONE`. -/
structure Slot where
  hash_tag : Nat
  key_len : Nat
  val_len : Nat
  offset : Nat
deriving DecidableEq, Repr

def Slot.OFF_EMPTY : Nat := 4294967295

def Slot.OFF_TOMB : Nat := 4294967294

def Slot.emptySlot : Slot := ⟨0, 0, 0, Slot.OFF_EMPTY⟩

instance : Inhabited Slot := ⟨Slot.emptySlot⟩

def Slot.isEmptySlot (s : Slot) : Bool := s.offset == Slot.OFF_EMPTY

def Slot.isTombstone (s : Slot) : Bool := s.offset == Slot.OFF_TOMB

def Slot.isValid (s : Slot) : Bool := decide (s.offset < Slot.OFF_TOMB)

/-- `Slot::make_tombstone`: set offset to the tombstone sentinel and zero
the hash tag (`key_len`/`val_len` are left as they were). -/
def Slot.makeTombstone (s : Slot) : Slot :=
  { s with offset := Slot.OFF_TOMB, hash_tag := 0 }

/-- The index (`index.hpp`): fixed array of slots, power-of-two capacity,
`mask = capacity - 1`. -/
structure Index where
  capacity : Nat
  mask : Nat
  slots : List Slot
deriving DecidableEq, Repr

/-- `Index::hash`: 32-bit FNV-1a over the key bytes. -/
def Index.hash (data : List Nat) : Nat :=
  data.foldl (fun h b => ((h ^^^ b) * 16777619) % 4294967296) 2166136261

/-- `Index::next_pow2`, the uint32 bit-smearing trick, including the
32-bit wrap of the initial decrement and of the final increment. -/
def Index.next_pow2 (v : Nat) : Nat :=
  let v := (v + 4294967295) % 4294967296
  let v := v ||| (v >>> 1)
  let v := v ||| (v >>> 2)
  let v := v ||| (v >>> 4)
  let v := v ||| (v >>> 8)
  let v := v ||| (v >>> 16)
  (v + 1) % 4294967296

/-- `Index::init`: round the requested slot count up to a power of two
(minimum 8), set the mask (uint32 `capacity - 1`), all slots empty. -/
def Index.init (slots : Nat) : Index :=
  let capacity := Index.next_pow2 (max slots 8)
  { capacity := capacity
    mask := (capacity + 4294967295) % 4294967296
    slots := List.replicate capacity Slot.emptySlot }

/-- The probe loop body of `Index::find`.  `fuel` counts the remaining
iterations (`capacity` at the start), `pos` is the current probe position,
`ft` records the first tombstone seen (`first_tomb`). -/
def Index.findAux (slots : List Slot) (mask tag klen : Nat) (eq : Slot → Bool) :
    Nat → Nat → Option Nat → Nat × Bool
  | 0, pos, ft => (ft.getD pos, false)
  | fuel + 1, pos, ft =>
    let s := slots.getD pos Slot.emptySlot
    if s.isEmptySlot then (ft.getD pos, false)
    else if s.isTombstone then
      Index.findAux slots mask tag klen eq fuel ((pos + 1) &&& mask)
        (if ft.isSome then ft else some pos)
    else if s.hash_tag == tag && s.key_len == klen && eq s then (pos, true)
    else Index.findAux slots mask tag klen eq fuel ((pos + 1) &&& mask) ft

/-- `Index::find`: linear probe from the home bucket `h & mask`, with the
high 8 bits of the hash as tag. -/
def Index.find (idx : Index) (h klen : Nat) (eq : Slot → Bool) : Nat × Bool :=
  Index.findAux idx.slots idx.mask (h >>> 24) klen eq idx.capacity
    (h &&& idx.mask) none

/-- `Index::update`: write a fresh slot at position `i`. -/
def Index.update (idx : Index) (i tag klen vlen off : Nat) : Index :=
  { idx with slots := idx.slots.set i ⟨tag, klen, vlen, off⟩ }

/-- The store: one arena and one (seqlock-wrapped) index.  Single-threaded
semantics, so the seqlock wrapper is the identity. -/
structure Store where
  arena : Arena
  index : Index
deriving DecidableEq, Repr

/-- `Hyperion::create`: fresh arena (cursor starts at 8, reserving offset
0-7) and freshly initialised index. -/
def Hyperion.create (bytes slots : Nat) : Store :=
  { arena := { size := bytes, cursor := 8, entries := [] }
    index := Index.init slots }

def MAX_KEY : Nat := 255

def MAX_VAL : Nat := 65535

/-- The allocation size computed by `Hyperion::put`:
`sizeof(EntryHeader) + klen + vlen` as `uint32`, rounded up to a multiple
of 8 by `(needed + 7) & ~7` (`~7` on `uint32` is `0xFFFFFFF8`). -/
def neededSize (key val : List Nat) : Nat :=
  (((8 + key.length + val.length) % 4294967296 + 7) % 4294967296) &&& 4294967288

/-- The key-equality predicate closed over by `put`/`get`/`del`: reject
non-valid slots, dereference the record at the slot's offset, compare the
full hash and the header key length, then byte-compare the first
`key.length` bytes of the record's key area against the probe key. -/
def keyEq (a : Arena) (h : Nat) (key : List Nat) (s : Slot) : Bool :=
  if s.isValid then
    match a.entryAt s.offset with
    | some e =>
      decide (e.hash = h) && decide (e.klen = key.length) &&
        decide ((e.key ++ e.val).take key.length = key)
    | none => false
  else false

/-- `Hyperion::put`. -/
def Hyperion.put (st : Store) (key val : List Nat) : Store × Status :=
  if MAX_KEY < key.length then (st, Status.KeyTooLong)
  else if MAX_VAL < val.length then (st, Status.ValTooLong)
  else
    let h := Index.hash key
    let tag := h >>> 24
    let needed := neededSize key val
    match st.arena.alloc needed with
    | (a2, none) => ({ st with arena := a2 }, Status.ArenaFull)
    | (a2, some off) =>
      let e : EntryRec :=
        { klen := key.length % 65536
          vlen := val.length % 65536
          hash := h
          key := key
          val := val }
      let a3 : Arena := { a2 with entries := (off, e) :: a2.entries }
      let fr := st.index.find h key.length (keyEq a3 h key)
      let idx2 := st.index.update fr.1 tag (key.length % 256) (val.length % 65536) off
      ({ arena := a3, index := idx2 }, Status.OK)

/-- The value bytes `get` copies out of a record: `e->vlen` bytes starting
at `(char*)e + sizeof(EntryHeader) + e->klen`, i.e. `e.vlen` bytes of the
record's byte area after skipping `e.klen` bytes. -/
def EntryRec.readVal (e : EntryRec) : List Nat :=
  ((e.key ++ e.val).drop e.klen).take e.vlen

/-- `Hyperion::get`: returns the status together with the caller's output
buffer, which is assigned only on the found path. -/
def Hyperion.get (st : Store) (key : List Nat) (out : List Nat) :
    Status × List Nat :=
  let h := Index.hash key
  let fr := st.index.find h key.length (keyEq st.arena h key)
  if fr.2 then
    let s := st.index.slots.getD fr.1 Slot.emptySlot
    match st.arena.entryAt s.offset with
    | some e => (Status.OK, e.readVal)
    | none => (Status.OK, [])
  else (Status.NotFound, out)

/-- `Hyperion::del`: tombstone the found slot. -/
def Hyperion.del (st : Store) (key : List Nat) : Store × Status :=
  let h := Index.hash key
  let fr := st.index.find h key.length (keyEq st.arena h key)
  if fr.2 then
    let s := st.index.slots.getD fr.1 Slot.emptySlot
    ({ st with index :=
        { st.index with slots := st.index.slots.set fr.1 s.makeTombstone } },
      Status.OK)
  else (st, Status.NotFound)

/-! ## Probe-walk characterisation

`Index.findAux` walks the ring of slot positions starting at the home
bucket.  To reason about it we re-express it as a walk over the explicit
list of probed positions (`probeList`) and characterise its outcomes. -/

/-- The combined per-slot match test used by `find`: tag check, cached key
length check, then the deep comparison `eq`. -/
def slotMatch (tag klen : Nat) (eq : Slot → Bool) (s : Slot) : Bool :=
  s.hash_tag == tag && s.key_len == klen && eq s

/-- `findList slots m probes ft wrap` performs the probe walk over the
explicit position list `probes`; `ft` is the first tombstone already seen
and `wrap` the position reported when the walk exhausts all probes. -/
def findList (slots : List Slot) (m : Slot → Bool) :
    List Nat → Option Nat → Nat → Nat × Bool
  | [], ft, wrap => (ft.getD wrap, false)
  | q :: rest, ft, wrap =>
    let s := slots.getD q Slot.emptySlot
    if s.isEmptySlot then (ft.getD q, false)
    else if s.isTombstone then findList slots m rest (some (ft.getD q)) wrap
    else if m s then (q, true)
    else findList slots m rest ft wrap

theorem ftUpdate_eq (ft : Option Nat) (q : Nat) :
    (if ft.isSome then ft else some q) = some (ft.getD q) := by
  rcases ft with _ | t <;> simp

/-- The list of positions probed by `n` steps of the walk starting at
`start`. -/
def probeList (mask start n : Nat) : List Nat :=
  (List.range n).map (fun i => (start + i) &&& mask)

theorem probeList_cons (mask start n : Nat) (w : Nat) (hm : mask = 2 ^ w - 1)
    (hs : start &&& mask = start) :
    probeList mask start (n + 1) = start :: probeList mask ((start + 1) &&& mask) n := by
  subst hm
  unfold probeList
  rw [List.range_succ_eq_map, List.map_cons, List.map_map]
  refine congrArg₂ _ (by simpa using hs) (List.map_congr_left ?_)
  intro i _
  simp only [Function.comp_apply, Nat.and_pow_two_sub_one_eq_mod, Nat.succ_eq_add_one,
    Nat.mod_add_mod]
  refine congrArg (· % 2 ^ w) (by omega)

theorem and_mask_idem (x w : Nat) :
    (x &&& (2 ^ w - 1)) &&& (2 ^ w - 1) = x &&& (2 ^ w - 1) := by
  simp [Nat.and_pow_two_sub_one_eq_mod]

theorem findAux_eq_findList (slots : List Slot) (w tag klen : Nat) (eq : Slot → Bool) :
    ∀ (fuel pos : Nat) (ft : Option Nat), pos &&& (2 ^ w - 1) = pos →
    Index.findAux slots (2 ^ w - 1) tag klen eq fuel pos ft =
      findList slots (slotMatch tag klen eq) (probeList (2 ^ w - 1) pos fuel) ft
        ((pos + fuel) &&& (2 ^ w - 1))
  | 0, pos, ft, hpos => by
      simp [Index.findAux, probeList, findList, hpos]
  | fuel + 1, pos, ft, hpos => by
      rw [probeList_cons _ _ _ w rfl hpos]
      have hstep : ((pos + 1) &&& (2 ^ w - 1)) &&& (2 ^ w - 1)
          = (pos + 1) &&& (2 ^ w - 1) := and_mask_idem _ w
      have hwrap : (((pos + 1) &&& (2 ^ w - 1)) + fuel) &&& (2 ^ w - 1)
          = (pos + (fuel + 1)) &&& (2 ^ w - 1) := by
        simp only [Nat.and_pow_two_sub_one_eq_mod, Nat.mod_add_mod]
        exact congrArg (· % 2 ^ w) (by omega)
      simp only [Index.findAux, findList, slotMatch, ftUpdate_eq]
      split
      · rfl
      · split
        · rw [findAux_eq_findList slots w tag klen eq fuel _ _ hstep, hwrap]
        · split
          · rfl
          · rw [findAux_eq_findList slots w tag klen eq fuel _ _ hstep, hwrap]

/-- `Index.find` expressed as a walk over the explicit probe list, for a
power-of-two table.  The walk starts at the home bucket `h &&& mask` and
visits `capacity` consecutive ring positions. -/
theorem find_eq_findList (idx : Index) (h klen : Nat) (eq : Slot → Bool) (w : Nat)
    (hm : idx.mask = 2 ^ w - 1) :
    idx.find h klen eq =
      findList idx.slots (slotMatch (h >>> 24) klen eq)
        (probeList idx.mask (h &&& idx.mask) idx.capacity) none
        (((h &&& idx.mask) + idx.capacity) &&& idx.mask) := by
  unfold Index.find
  rw [hm]
  exact findAux_eq_findList idx.slots w (h >>> 24) klen eq idx.capacity
    (h &&& (2 ^ w - 1)) none (and_mask_idem h w)

theorem probeList_mem_le {mask start n q : Nat} (hq : q ∈ probeList mask start n) :
    q ≤ mask := by
  unfold probeList at hq
  obtain ⟨i, _, rfl⟩ := List.mem_map.mp hq
  exact Nat.and_le_right

theorem probeList_nodup (mask start n w : Nat) (hm : mask = 2 ^ w - 1)
    (hn : n ≤ 2 ^ w) : (probeList mask start n).Nodup := by
  subst hm
  refine List.Nodup.map_on ?_ (List.nodup_range n)
  intro i hi j hj hij
  simp only [List.mem_range] at hi hj
  simp only [Nat.and_pow_two_sub_one_eq_mod] at hij
  have hmod : i % 2 ^ w = j % 2 ^ w :=
    Nat.ModEq.add_left_cancel' start hij
  rwa [Nat.mod_eq_of_lt (by omega), Nat.mod_eq_of_lt (by omega)] at hmod

/-- If no probed slot matches, the walk reports `found = false`. -/
theorem findList_noMatch (slots : List Slot) (m : Slot → Bool) :
    ∀ (probes : List Nat) (ft : Option Nat) (wrap : Nat),
    (∀ q ∈ probes, m (slots.getD q Slot.emptySlot) = false) →
    (findList slots m probes ft wrap).2 = false
  | [], ft, wrap, _ => rfl
  | q :: rest, ft, wrap, hno => by
      simp only [findList]
      split
      · rfl
      · split
        · exact findList_noMatch slots m rest _ wrap fun p hp => hno p (List.mem_cons_of_mem q hp)
        · split
          · next hmq =>
              exact absurd (hno q (List.mem_cons_self q rest) ▸ hmq) Bool.false_ne_true
          · exact findList_noMatch slots m rest ft wrap fun p hp =>
              hno p (List.mem_cons_of_mem q hp)

theorem Slot.isEmptySlot_eq_false_of_isTombstone {s : Slot}
    (h : s.isTombstone = true) : s.isEmptySlot = false := by
  simp only [Slot.isTombstone, beq_iff_eq] at h
  simp [Slot.isEmptySlot, h, Slot.OFF_TOMB, Slot.OFF_EMPTY]

/-- Not-found walks whose recorded first tombstone points at a tombstone
slot report a tombstone position. -/
theorem findList_ft_tomb (slots : List Slot) (m : Slot → Bool) :
    ∀ (probes : List Nat) (t0 : Nat) (wrap j : Nat),
    (slots.getD t0 Slot.emptySlot).isTombstone = true →
    findList slots m probes (some t0) wrap = (j, false) →
    (slots.getD j Slot.emptySlot).isTombstone = true
  | [], t0, wrap, j, ht0, hres => by
      have : t0 = j := by simpa [findList] using congrArg Prod.fst hres
      exact this ▸ ht0
  | q :: rest, t0, wrap, j, ht0, hres => by
      simp only [findList] at hres
      split at hres
      · have : t0 = j := by simpa using congrArg Prod.fst hres
        exact this ▸ ht0
      · split at hres
        · exact findList_ft_tomb slots m rest t0 wrap j ht0 (by simpa using hres)
        · split at hres
          · exact absurd (congrArg Prod.snd hres) (by simp)
          · exact findList_ft_tomb slots m rest t0 wrap j ht0 hres

/-- If the walk passes a non-empty prefix and then a tombstone, a
not-found outcome always reports a tombstone position (the recycling
guarantee used by tombstone reuse). -/
theorem findList_tomb_choice (slots : List Slot) (m : Slot → Bool) :
    ∀ (pre : List Nat) (post : List Nat) (wrap j mpos : Nat),
    (∀ q ∈ pre, (slots.getD q Slot.emptySlot).isEmptySlot = false) →
    (slots.getD mpos Slot.emptySlot).isTombstone = true →
    findList slots m (pre ++ mpos :: post) none wrap = (j, false) →
    (slots.getD j Slot.emptySlot).isTombstone = true
  | [], post, wrap, j, mpos, hpre, hmposT, hres => by
      simp only [List.nil_append, findList] at hres
      rw [if_neg (by
          rw [Slot.isEmptySlot_eq_false_of_isTombstone hmposT]
          exact Bool.false_ne_true),
        if_pos hmposT] at hres
      exact findList_ft_tomb slots m post mpos wrap j hmposT (by simpa using hres)
  | q :: pre, post, wrap, j, mpos, hpre, hmposT, hres => by
      simp only [List.cons_append, findList] at hres
      rw [if_neg (by
          rw [hpre q (List.mem_cons_self q pre)]
          exact Bool.false_ne_true)] at hres
      split at hres
      · next htombq =>
        exact findList_ft_tomb slots m (pre ++ mpos :: post) q wrap j htombq
          (by simpa using hres)
      · split at hres
        · exact absurd (congrArg Prod.snd hres) (by simp)
        · exact findList_tomb_choice slots m pre post wrap j mpos
            (fun p hp => hpre p (List.mem_cons_of_mem q hp)) hmposT hres

/-- A successful walk decomposes the probe list: a prefix of non-empty,
non-matching positions, then the found position, which is a live matching
slot.  Requires that the matcher rejects tombstones (true of every matcher
used by the store, whose deep comparison starts with `is_valid`). -/
theorem findList_found_decomp (slots : List Slot) (m : Slot → Bool)
    (hmt : ∀ s, s.isTombstone = true → m s = false) :
    ∀ (probes : List Nat) (ft : Option Nat) (wrap j : Nat),
    findList slots m probes ft wrap = (j, true) →
    ∃ pre post, probes = pre ++ j :: post ∧
      (∀ q ∈ pre, (slots.getD q Slot.emptySlot).isEmptySlot = false ∧
        m (slots.getD q Slot.emptySlot) = false) ∧
      (slots.getD j Slot.emptySlot).isEmptySlot = false ∧
      (slots.getD j Slot.emptySlot).isTombstone = false ∧
      m (slots.getD j Slot.emptySlot) = true
  | [], ft, wrap, j, hres => by
      exact absurd (congrArg Prod.snd hres) (by simp [findList])
  | q :: rest, ft, wrap, j, hres => by
      simp only [findList] at hres
      split at hres
      · exact absurd (congrArg Prod.snd hres) (by simp)
      · next hemp =>
        split at hres
        · next htomb =>
          obtain ⟨pre, post, hsplit, hpre, hj⟩ :=
            findList_found_decomp slots m hmt rest _ wrap j hres
          refine ⟨q :: pre, post, by simp [hsplit], ?_, hj⟩
          intro p hp
          rcases List.mem_cons.mp hp with rfl | hp
          · exact ⟨by simpa using hemp, hmt _ htomb⟩
          · exact hpre p hp
        · next htomb =>
          split at hres
          · next hm =>
            have hq : q = j := congrArg Prod.fst hres
            subst hq
            exact ⟨[], rest, rfl, by simp, by simpa using hemp,
              by simpa using htomb, hm⟩
          · next hm =>
            obtain ⟨pre, post, hsplit, hpre, hj⟩ :=
              findList_found_decomp slots m hmt rest ft wrap j hres
            refine ⟨q :: pre, post, by simp [hsplit], ?_, hj⟩
            intro p hp
            rcases List.mem_cons.mp hp with rfl | hp
            · exact ⟨by simpa using hemp, by simpa using hm⟩
            · exact hpre p hp

/-- Once a first tombstone is recorded, it is the position any not-found
outcome reports. -/
theorem findList_ft_fixed (slots : List Slot) (m : Slot → Bool) :
    ∀ (probes : List Nat) (t0 wrap j : Nat),
    findList slots m probes (some t0) wrap = (j, false) → j = t0
  | [], t0, wrap, j, hres => by
      simpa [findList] using (congrArg Prod.fst hres).symm
  | q :: rest, t0, wrap, j, hres => by
      simp only [findList] at hres
      split at hres
      · simpa using (congrArg Prod.fst hres).symm
      · split at hres
        · exact findList_ft_fixed slots m rest t0 wrap j (by simpa using hres)
        · split at hres
          · exact absurd (congrArg Prod.snd hres) (by simp)
          · exact findList_ft_fixed slots m rest t0 wrap j hres

/-- Not-found decomposition for a walk started with no tombstone recorded:
the reported position is either reached through a prefix of non-empty,
non-matching probes, or is the wrap fallback after a fully non-empty,
non-matching probe list. -/
theorem findList_nf_decomp (slots : List Slot) (m : Slot → Bool) :
    ∀ (probes : List Nat) (wrap j : Nat),
    findList slots m probes none wrap = (j, false) →
    (∃ pre post, probes = pre ++ j :: post ∧
      (∀ q ∈ pre, (slots.getD q Slot.emptySlot).isEmptySlot = false ∧
        m (slots.getD q Slot.emptySlot) = false)) ∨
    (j = wrap ∧ ∀ q ∈ probes, (slots.getD q Slot.emptySlot).isEmptySlot = false ∧
      m (slots.getD q Slot.emptySlot) = false)
  | [], wrap, j, hres => by
      right
      refine ⟨by simpa [findList] using (congrArg Prod.fst hres).symm, by simp⟩
  | q :: rest, wrap, j, hres => by
      simp only [findList] at hres
      split at hres
      · left
        have hq : j = q := by simpa using (congrArg Prod.fst hres).symm
        exact ⟨[], rest, by rw [hq]; rfl, by simp⟩
      · next hemp =>
        split at hres
        · left
          have hq : j = q := findList_ft_fixed slots m rest q wrap j (by simpa using hres)
          exact ⟨[], rest, by rw [hq]; rfl, by simp⟩
        · next htomb =>
          split at hres
          · exact absurd (congrArg Prod.snd hres) (by simp)
          · next hm =>
            rcases findList_nf_decomp slots m rest wrap j hres with
              ⟨pre, post, hsplit, hpre⟩ | ⟨hj, hall⟩
            · left
              refine ⟨q :: pre, post, by simp [hsplit], ?_⟩
              intro p hp
              rcases List.mem_cons.mp hp with rfl | hp
              · exact ⟨by simpa using hemp, by simpa using hm⟩
              · exact hpre p hp
            · right
              refine ⟨hj, ?_⟩
              intro p hp
              rcases List.mem_cons.mp hp with rfl | hp
              · exact ⟨by simpa using hemp, by simpa using hm⟩
              · exact hall p hp

/-- Forward construction: a walk over a prefix of non-empty, non-matching
positions followed by a non-empty matching position finds that position.
Requires that the matcher rejects tombstones. -/
theorem findList_foundConstruct (slots : List Slot) (m : Slot → Bool)
    (hmt : ∀ s, s.isTombstone = true → m s = false) :
    ∀ (pre post : List Nat) (ft : Option Nat) (wrap j : Nat),
    (∀ q ∈ pre, (slots.getD q Slot.emptySlot).isEmptySlot = false ∧
      m (slots.getD q Slot.emptySlot) = false) →
    (slots.getD j Slot.emptySlot).isEmptySlot = false →
    m (slots.getD j Slot.emptySlot) = true →
    findList slots m (pre ++ j :: post) ft wrap = (j, true)
  | [], post, ft, wrap, j, hpre, hjemp, hjm => by
      have hjtomb : (slots.getD j Slot.emptySlot).isTombstone = false := by
        by_contra hc
        rw [hmt _ (by revert hc; cases (slots.getD j Slot.emptySlot).isTombstone <;> simp)] at hjm
        exact Bool.false_ne_true hjm
      simp only [List.nil_append, findList]
      rw [if_neg (by rw [hjemp]; exact Bool.false_ne_true),
        if_neg (by rw [hjtomb]; exact Bool.false_ne_true), if_pos hjm]
  | q :: pre, post, ft, wrap, j, hpre, hjemp, hjm => by
      have hq := hpre q (List.mem_cons_self q pre)
      have hrest : ∀ p ∈ pre, (slots.getD p Slot.emptySlot).isEmptySlot = false ∧
          m (slots.getD p Slot.emptySlot) = false :=
        fun p hp => hpre p (List.mem_cons_of_mem q hp)
      simp only [List.cons_append, findList]
      rw [if_neg (by rw [hq.1]; exact Bool.false_ne_true)]
      split
      · exact findList_foundConstruct slots m hmt pre post _ wrap j hrest hjemp hjm
      · rw [if_neg (by rw [hq.2]; exact Bool.false_ne_true)]
        exact findList_foundConstruct slots m hmt pre post ft wrap j hrest hjemp hjm

/-- The probe walk only ever reports masked positions. -/
theorem findAux_fst_le (slots : List Slot) (mask tag klen : Nat) (eq : Slot → Bool) :
    ∀ (fuel pos : Nat) (ft : Option Nat), pos ≤ mask →
    (∀ t, ft = some t → t ≤ mask) →
    (Index.findAux slots mask tag klen eq fuel pos ft).1 ≤ mask
  | 0, pos, ft, hpos, hft => by
      rcases ft with _ | t
      · simpa [Index.findAux] using hpos
      · simpa [Index.findAux] using hft t rfl
  | fuel + 1, pos, ft, hpos, hft => by
      simp only [Index.findAux]
      split
      · rcases ft with _ | t
        · simpa using hpos
        · simpa using hft t rfl
      · split
        · refine findAux_fst_le slots mask tag klen eq fuel _ _ Nat.and_le_right ?_
          intro t ht
          rcases ft with _ | t0
          · simp at ht
            exact ht ▸ hpos
          · simp at ht
            exact ht ▸ hft t0 rfl
        · split
          · exact hpos
          · exact findAux_fst_le slots mask tag klen eq fuel _ _ Nat.and_le_right hft

/-- The position reported by `Index.find` is within the mask. -/
theorem find_fst_le (idx : Index) (h klen : Nat) (eq : Slot → Bool) :
    (idx.find h klen eq).1 ≤ idx.mask :=
  findAux_fst_le idx.slots idx.mask (h >>> 24) klen eq idx.capacity
    (h &&& idx.mask) none Nat.and_le_right (by simp)


/-! ## State predicates and small helpers -/

/-- Basic well-formedness of a store: the index is a power-of-two table
with `mask = capacity - 1` and a slot array of exactly `capacity` entries;
the arena cursor is a 32-bit multiple of 8 (it starts at 8 and every
allocation size is a multiple of 8) and the arena size fits in 32 bits. -/
def StoreWF (st : Store) : Prop :=
  (∃ w, st.index.mask = 2 ^ w - 1 ∧ st.index.capacity = 2 ^ w) ∧
  st.index.slots.length = st.index.capacity ∧
  st.arena.cursor % 8 = 0 ∧
  st.arena.cursor < 4294967296 ∧
  st.arena.size < 4294967296

/-- Every valid slot points strictly below the allocation cursor (new
allocations are at fresh offsets). -/
def FreshOffsets (st : Store) : Prop :=
  ∀ s ∈ st.index.slots, s.offset < Slot.OFF_TOMB → s.offset < st.arena.cursor

/-- The full per-slot matcher `find` evaluates for a probe key. -/
def keyMatcher (a : Arena) (key : List Nat) : Slot → Bool :=
  slotMatch (Index.hash key >>> 24) key.length (keyEq a (Index.hash key) key)

theorem keyEq_of_tomb (a : Arena) (h : Nat) (key : List Nat) {s : Slot}
    (ht : s.isTombstone = true) : keyEq a h key s = false := by
  simp only [Slot.isTombstone, beq_iff_eq] at ht
  simp [keyEq, Slot.isValid, ht]

theorem keyMatcher_tomb (a : Arena) (key : List Nat) :
    ∀ s, s.isTombstone = true → keyMatcher a key s = false := by
  intro s ht
  simp [keyMatcher, slotMatch, keyEq_of_tomb a _ key ht]

theorem getD_set_self {l : List Slot} {i : Nat} {a d : Slot} (h : i < l.length) :
    (l.set i a).getD i d = a := by
  simp [List.getD_eq_getElem?_getD, List.getElem?_set_self h]

theorem getD_set_ne {l : List Slot} {i j : Nat} {a d : Slot} (h : i ≠ j) :
    (l.set i a).getD j d = l.getD j d := by
  simp [List.getD_eq_getElem?_getD, List.getElem?_set_ne h]

theorem nodup_middle_not_mem {pre post : List Nat} {j : Nat}
    (h : (pre ++ j :: post).Nodup) : j ∉ pre := by
  intro hj
  rcases List.nodup_append.mp h with ⟨-, -, hdisj⟩
  exact hdisj hj (List.mem_cons_self j post)

theorem lookup_cons_self {off : Nat} {e : EntryRec} {l : List (Nat × EntryRec)} :
    ((off, e) :: l).lookup off = some e := by
  simp [List.lookup]

theorem lookup_cons_ne {off k : Nat} {e : EntryRec} {l : List (Nat × EntryRec)}
    (h : k ≠ off) : ((off, e) :: l).lookup k = l.lookup k := by
  simp [List.lookup, beq_false_of_ne h]

theorem wrap_start (h w : Nat) :
    ((h &&& (2 ^ w - 1)) + 2 ^ w) &&& (2 ^ w - 1) = h &&& (2 ^ w - 1) := by
  simp [Nat.and_pow_two_sub_one_eq_mod, Nat.add_mod_right]

/-! ## Characterisation of `put` -/

/-- The entry record a successful `put` writes (header fields truncated to
their C++ widths). -/
def putEntry (key val : List Nat) : EntryRec :=
  { klen := key.length % 65536
    vlen := val.length % 65536
    hash := Index.hash key
    key := key
    val := val }

/-- The arena after a successful `put`: cursor bumped, new record at the
old cursor. -/
def putArena (st : Store) (key val : List Nat) : Arena :=
  { size := st.arena.size
    cursor := (st.arena.cursor + neededSize key val) % 4294967296
    entries := (st.arena.cursor, putEntry key val) :: st.arena.entries }

/-- The `(index, found)` pair `put` obtains from `find` (the `eq` closure
reads through the already-written arena). -/
def putFind (st : Store) (key val : List Nat) : Nat × Bool :=
  st.index.find (Index.hash key) key.length
    (keyEq (putArena st key val) (Index.hash key) key)

/-- The slot a successful `put` publishes. -/
def putNewSlot (st : Store) (key val : List Nat) : Slot :=
  { hash_tag := Index.hash key >>> 24
    key_len := key.length % 256
    val_len := val.length % 65536
    offset := st.arena.cursor }

theorem put_alloc_fail {st : Store} {key val : List Nat}
    (hk : key.length ≤ MAX_KEY) (hv : val.length ≤ MAX_VAL)
    (hfail : st.arena.size < (st.arena.cursor + neededSize key val) % 4294967296) :
    Hyperion.put st key val =
      ({ st with arena := { st.arena with
          cursor := (st.arena.cursor + neededSize key val) % 4294967296 } },
        Status.ArenaFull) := by
  unfold Hyperion.put
  rw [if_neg (Nat.not_lt.mpr hk), if_neg (Nat.not_lt.mpr hv)]
  simp only [Arena.alloc]
  rw [if_pos hfail]

theorem put_alloc_ok {st : Store} {key val : List Nat}
    (hk : key.length ≤ MAX_KEY) (hv : val.length ≤ MAX_VAL)
    (hok : (st.arena.cursor + neededSize key val) % 4294967296 ≤ st.arena.size) :
    Hyperion.put st key val =
      ({ arena := putArena st key val
         index := { st.index with
          slots := st.index.slots.set (putFind st key val).1 (putNewSlot st key val) } },
        Status.OK) := by
  unfold Hyperion.put
  rw [if_neg (Nat.not_lt.mpr hk), if_neg (Nat.not_lt.mpr hv)]
  simp only [Arena.alloc]
  rw [if_neg (Nat.not_lt.mpr hok)]
  rfl

theorem slotMatch_tomb (tag klen : Nat) (a : Arena) (h : Nat) (key : List Nat) :
    ∀ s, s.isTombstone = true → slotMatch tag klen (keyEq a h key) s = false := by
  intro s ht
  simp [slotMatch, keyEq_of_tomb a h key ht]

/-- Writing a matching, non-empty slot at the position reported by a walk
makes the same walk find that position. -/
theorem findList_set_found (slots : List Slot) (m : Slot → Bool)
    (hmt : ∀ s, s.isTombstone = true → m s = false)
    (probes : List Nat) (wrap i : Nat) (b : Bool) (ns : Slot)
    (hnodup : probes.Nodup)
    (hhead : probes.head? = some wrap)
    (hilen : i < slots.length)
    (hne : ns.isEmptySlot = false)
    (hns : m ns = true)
    (hres : findList slots m probes none wrap = (i, b)) :
    findList (slots.set i ns) m probes none wrap = (i, true) := by
  cases b
  · rcases findList_nf_decomp slots m probes wrap i hres with
      ⟨pre, post, hsplit, hpre⟩ | ⟨hiw, hall⟩
    · have hnotmem : i ∉ pre := nodup_middle_not_mem (hsplit ▸ hnodup)
      rw [hsplit]
      refine findList_foundConstruct _ m hmt pre post none wrap i ?_ ?_ ?_
      · intro q hq
        rw [getD_set_ne fun he => hnotmem (by rw [he]; exact hq)]
        exact hpre q hq
      · rw [getD_set_self hilen]
        exact hne
      · rw [getD_set_self hilen]
        exact hns
    · rcases probes with _ | ⟨q0, rest⟩
      · simp at hhead
      · have hq0 : q0 = i := by
          have hqw : q0 = wrap := by simpa using hhead
          rw [hqw, hiw]
        subst hq0
        have hc := findList_foundConstruct (slots.set q0 ns) m hmt [] rest none wrap q0
          (by simp) (by rw [getD_set_self hilen]; exact hne)
          (by rw [getD_set_self hilen]; exact hns)
        simpa using hc
  · obtain ⟨pre, post, hsplit, hpre, hjemp, hjtomb, hjm⟩ :=
      findList_found_decomp slots m hmt probes none wrap i hres
    have hnotmem : i ∉ pre := fun hq =>
      Bool.false_ne_true ((hpre i hq).2 ▸ hjm)
    rw [hsplit]
    refine findList_foundConstruct _ m hmt pre post none wrap i ?_ ?_ ?_
    · intro q hq
      rw [getD_set_ne fun he => hnotmem (by rw [he]; exact hq)]
      exact hpre q hq
    · rw [getD_set_self hilen]
      exact hne
    · rw [getD_set_self hilen]
      exact hns

theorem put_ok_cond {st : Store} {key val : List Nat}
    (hk : key.length ≤ MAX_KEY) (hv : val.length ≤ MAX_VAL)
    (hOK : (Hyperion.put st key val).2 = Status.OK) :
    (st.arena.cursor + neededSize key val) % 4294967296 ≤ st.arena.size := by
  by_contra hc
  rw [put_alloc_fail hk hv (Nat.lt_of_not_le hc)] at hOK
  exact Status.noConfusion hOK

theorem probeList_head (mask start n : Nat) (hn : 0 < n)
    (hs : start &&& mask = start) :
    (probeList mask start n).head? = some start := by
  unfold probeList
  rcases n with _ | n
  · omega
  · rw [List.range_succ_eq_map]
    simpa using hs

/-- Core round-trip property: a successful `put` is immediately visible to
`get`, which returns exactly the value bytes just written. -/
theorem roundtrip_core (st : Store) (key val buf : List Nat)
    (hWF : StoreWF st)
    (hk : key.length ≤ 255) (hv : val.length ≤ 65535)
    (hok : (st.arena.cursor + neededSize key val) % 4294967296 ≤ st.arena.size) :
    Hyperion.get (Hyperion.put st key val).1 key buf = (Status.OK, val) := by
  obtain ⟨⟨w, hmask, hcap⟩, hlen, hc8, hclt, hslt⟩ := hWF
  have hcurTomb : st.arena.cursor < Slot.OFF_TOMB := by
    simp only [Slot.OFF_TOMB]
    omega
  have h2w : 0 < 2 ^ w := Nat.pos_pow_of_pos w (by omega)
  rw [put_alloc_ok hk hv hok]
  rcases hpf : putFind st key val with ⟨i, found⟩
  have hile : i ≤ st.index.mask := by
    have hb : (putFind st key val).1 ≤ st.index.mask :=
      find_fst_le st.index (Index.hash key) key.length
        (keyEq (putArena st key val) (Index.hash key) key)
    rw [hpf] at hb
    exact hb
  have hilen : i < st.index.slots.length := by omega
  have hchar1 : putFind st key val
      = findList st.index.slots
          (slotMatch (Index.hash key >>> 24) key.length
            (keyEq (putArena st key val) (Index.hash key) key))
          (probeList st.index.mask (Index.hash key &&& st.index.mask) st.index.capacity)
          none
          (((Index.hash key &&& st.index.mask) + st.index.capacity) &&& st.index.mask) := by
    unfold putFind
    exact find_eq_findList st.index _ _ _ w hmask
  have hwrapPos : ((Index.hash key &&& st.index.mask) + st.index.capacity) &&& st.index.mask
      = Index.hash key &&& st.index.mask := by
    rw [hcap, hmask]
    exact wrap_start _ w
  rw [hchar1, hwrapPos] at hpf
  have hnodup : (probeList st.index.mask (Index.hash key &&& st.index.mask)
      st.index.capacity).Nodup :=
    probeList_nodup _ _ _ w hmask (by rw [hcap])
  have hhead : (probeList st.index.mask (Index.hash key &&& st.index.mask)
      st.index.capacity).head? = some (Index.hash key &&& st.index.mask) :=
    probeList_head _ _ _ (by omega) (by rw [hmask]; exact and_mask_idem _ w)
  have hmod256 : key.length % 256 = key.length := Nat.mod_eq_of_lt (by omega)
  have hmod64k : key.length % 65536 = key.length := Nat.mod_eq_of_lt (by omega)
  have hvmod : val.length % 65536 = val.length := Nat.mod_eq_of_lt (by omega)
  have hne_ns : (putNewSlot st key val).isEmptySlot = false := by
    simp only [putNewSlot, Slot.isEmptySlot, Slot.OFF_EMPTY, beq_eq_false_iff_ne, ne_eq]
    simp only [Slot.OFF_TOMB] at hcurTomb
    omega
  have hm_ns : slotMatch (Index.hash key >>> 24) key.length
      (keyEq (putArena st key val) (Index.hash key) key) (putNewSlot st key val) = true := by
    simp [slotMatch, putNewSlot, keyEq, Slot.isValid, Arena.entryAt, putArena,
      putEntry, hmod256, hmod64k, hcurTomb, lookup_cons_self, List.take_left]
  have hmain := findList_set_found st.index.slots
    (slotMatch (Index.hash key >>> 24) key.length
      (keyEq (putArena st key val) (Index.hash key) key))
    (slotMatch_tomb _ _ _ _ _)
    (probeList st.index.mask (Index.hash key &&& st.index.mask) st.index.capacity)
    (Index.hash key &&& st.index.mask) i found (putNewSlot st key val)
    hnodup hhead hilen hne_ns hm_ns hpf
  simp only [Hyperion.get]
  rw [find_eq_findList
      ⟨st.index.capacity, st.index.mask, st.index.slots.set i (putNewSlot st key val)⟩
      (Index.hash key) key.length
      (keyEq (putArena st key val) (Index.hash key) key) w hmask]
  simp only
  rw [hwrapPos, hmain]
  simp only [if_true]
  rw [getD_set_self hilen]
  simp only [putNewSlot, Arena.entryAt, putArena, lookup_cons_self, putEntry,
    EntryRec.readVal, hmod64k, hvmod, List.drop_left, List.take_length]

/-- C1: for every key `k` with `|k| ≤ 255` and value `v` with `|v| ≤ 65535`,
if `put(k, v)` returns `OK` then an immediately following `get(k)`
(no intervening operations, single-threaded) returns `OK` and writes
exactly the bytes of `v` into the caller's output buffer. -/
theorem C1_put_get_roundtrip (st : Store) (key val buf : List Nat)
    (hWF : StoreWF st) (hk : key.length ≤ 255) (hv : val.length ≤ 65535)
    (hOK : (Hyperion.put st key val).2 = Status.OK) :
    Hyperion.get (Hyperion.put st key val).1 key buf = (Status.OK, val) :=
  roundtrip_core st key val buf hWF hk hv (put_ok_cond hk hv hOK)

theorem C1_put_get_roundtrip_witness :
    Hyperion.get (Hyperion.put (Hyperion.create 1024 8) [1] [2, 3]).1 [1] [9]
      = (Status.OK, [2, 3]) :=
  C1_put_get_roundtrip (Hyperion.create 1024 8) [1] [2, 3] [9]
    ⟨⟨3, by decide, by decide⟩, by decide, by decide, by decide, by decide⟩
    (by decide) (by decide) (by decide)

/-- C10: whenever `get` returns `NotFound`, the caller's output buffer is
returned exactly as it was passed in — the value is assigned only on the
`found = true` path. -/
theorem C10_get_notfound_preserves_buffer (st : Store) (key buf : List Nat)
    (h : (Hyperion.get st key buf).1 = Status.NotFound) :
    (Hyperion.get st key buf).2 = buf := by
  simp only [Hyperion.get] at h ⊢
  by_cases hc : (st.index.find (Index.hash key) key.length
      (keyEq st.arena (Index.hash key) key)).2 = true
  · rw [if_pos hc] at h
    exfalso
    split at h <;> exact Status.noConfusion h
  · rw [if_neg hc]

theorem C10_get_notfound_preserves_buffer_witness :
    (Hyperion.get (Hyperion.create 1024 8) [1] [7, 7]).2 = [7, 7] :=
  C10_get_notfound_preserves_buffer (Hyperion.create 1024 8) [1] [7, 7] (by decide)

/-- No probe ever matches when the matcher is pointwise false. -/
theorem findAux_snd_false (slots : List Slot) (mask tag klen : Nat) (eq : Slot → Bool)
    (hno : ∀ pos, slotMatch tag klen eq (slots.getD pos Slot.emptySlot) = false) :
    ∀ (fuel pos : Nat) (ft : Option Nat),
    (Index.findAux slots mask tag klen eq fuel pos ft).2 = false
  | 0, pos, ft => rfl
  | fuel + 1, pos, ft => by
      simp only [Index.findAux]
      split
      · rfl
      · split
        · exact findAux_snd_false slots mask tag klen eq hno fuel _ _
        · split
          · next hm =>
            have hfalse := hno pos
            unfold slotMatch at hfalse
            rw [hfalse] at hm
            exact Bool.noConfusion hm
          · exact findAux_snd_false slots mask tag klen eq hno fuel _ _

/-- C9: `get` and `delete` perform no key-length validation; for every key
longer than 255 bytes they return `NotFound` (never `KeyTooLong`), because
no slot's 8-bit `key_len` can equal such a length, so `find` never
matches.  `get` leaves the buffer untouched and `del` leaves the store
unchanged. -/
theorem C9_long_key_get_del (st : Store) (key buf : List Nat)
    (hkey : 255 < key.length)
    (hslots : ∀ s ∈ st.index.slots, s.key_len < 256) :
    Hyperion.get st key buf = (Status.NotFound, buf) ∧
    Hyperion.del st key = (st, Status.NotFound) := by
  have hno : ∀ pos, slotMatch (Index.hash key >>> 24) key.length
      (keyEq st.arena (Index.hash key) key)
      (st.index.slots.getD pos Slot.emptySlot) = false := by
    intro pos
    have hkl : (st.index.slots.getD pos Slot.emptySlot).key_len < 256 := by
      by_cases hp : pos < st.index.slots.length
      · have hmem : st.index.slots.getD pos Slot.emptySlot ∈ st.index.slots := by
          rw [List.getD_eq_getElem?_getD, List.getElem?_eq_getElem hp]
          exact List.getElem_mem hp
        exact hslots _ hmem
      · rw [List.getD_eq_default _ _ (by omega)]
        simp [Slot.emptySlot]
    have hbeq : ((st.index.slots.getD pos Slot.emptySlot).key_len == key.length) = false := by
      simp only [beq_eq_false_iff_ne, ne_eq]
      omega
    unfold slotMatch
    rw [hbeq]
    simp
  have hfind : ∀ eqf, eqf = keyEq st.arena (Index.hash key) key →
      (st.index.find (Index.hash key) key.length eqf).2 = false := by
    intro eqf heq
    subst heq
    exact findAux_snd_false st.index.slots st.index.mask _ _ _ hno st.index.capacity _ _
  constructor
  · simp only [Hyperion.get]
    rw [if_neg (by rw [hfind _ rfl]; exact Bool.false_ne_true)]
  · simp only [Hyperion.del]
    rw [if_neg (by rw [hfind _ rfl]; exact Bool.false_ne_true)]

set_option maxRecDepth 4000 in
theorem C9_long_key_get_del_witness :
    Hyperion.get (Hyperion.put (Hyperion.create 1024 8) [1] [2]).1
        (List.replicate 256 0) [5] = (Status.NotFound, [5]) ∧
    Hyperion.del (Hyperion.put (Hyperion.create 1024 8) [1] [2]).1
        (List.replicate 256 0) = ((Hyperion.put (Hyperion.create 1024 8) [1] [2]).1,
          Status.NotFound) :=
  C9_long_key_get_del _ (List.replicate 256 0) [5] (by decide) (by decide)

/-! ## C2: failed `put` and state change -/

theorem keyEq_congr {a a2 : Arena} (hent : a.entries = a2.entries)
    (h : Nat) (key : List Nat) : keyEq a h key = keyEq a2 h key := by
  funext s
  simp [keyEq, Arena.entryAt, hent]

/-- `get` depends only on the index and the written records. -/
theorem get_congr (st st2 : Store) (hidx : st2.index = st.index)
    (hent : st2.arena.entries = st.arena.entries) (q buf : List Nat) :
    Hyperion.get st2 q buf = Hyperion.get st q buf := by
  simp only [Hyperion.get]
  rw [hidx, keyEq_congr hent]
  simp only [Arena.entryAt, hent]

/-- `del` status and resulting index depend only on the index and the
written records. -/
theorem del_congr (st st2 : Store) (hidx : st2.index = st.index)
    (hent : st2.arena.entries = st.arena.entries) (q : List Nat) :
    (Hyperion.del st2 q).2 = (Hyperion.del st q).2 ∧
    (Hyperion.del st2 q).1.index = (Hyperion.del st q).1.index := by
  simp only [Hyperion.del]
  rw [hidx, keyEq_congr hent]
  split
  · exact ⟨rfl, by simp [hidx]⟩
  · exact ⟨rfl, by simp [hidx]⟩

/-- A `put` that reports `ArenaFull` has passed the size guards and failed
allocation: the state is exactly the cursor-advanced state. -/
theorem put_arenafull_shape {st : Store} {key val : List Nat}
    (hfail : (Hyperion.put st key val).2 = Status.ArenaFull) :
    key.length ≤ MAX_KEY ∧ val.length ≤ MAX_VAL ∧
    st.arena.size < (st.arena.cursor + neededSize key val) % 4294967296 ∧
    (Hyperion.put st key val).1 = { st with arena := { st.arena with
      cursor := (st.arena.cursor + neededSize key val) % 4294967296 } } := by
  by_cases hk : key.length ≤ MAX_KEY
  · by_cases hv : val.length ≤ MAX_VAL
    · by_cases ha : st.arena.size < (st.arena.cursor + neededSize key val) % 4294967296
      · exact ⟨hk, hv, ha, by rw [put_alloc_fail hk hv ha]⟩
      · rw [put_alloc_ok hk hv (by omega)] at hfail
        exact Status.noConfusion hfail
    · have : Hyperion.put st key val = (st, Status.ValTooLong) := by
        unfold Hyperion.put
        rw [if_neg (Nat.not_lt.mpr hk), if_pos (by omega)]
      rw [this] at hfail
      exact Status.noConfusion hfail
  · have : Hyperion.put st key val = (st, Status.KeyTooLong) := by
      unfold Hyperion.put
      rw [if_pos (by omega)]
    rw [this] at hfail
    exact Status.noConfusion hfail

/-- The conclusion of the amended C2: a failed `put` leaves the index
slots and the written records untouched (so all `get`s and `delete`s
behave as before the call), but advances the arena cursor by the rounded
allocation size modulo `2^32`. -/
def FailedPutEffect (st : Store) (key val : List Nat) : Prop :=
  (Hyperion.put st key val).1.index = st.index ∧
  (Hyperion.put st key val).1.arena.entries = st.arena.entries ∧
  (Hyperion.put st key val).1.arena.size = st.arena.size ∧
  (Hyperion.put st key val).1.arena.cursor
    = (st.arena.cursor + neededSize key val) % 4294967296 ∧
  (∀ q buf, Hyperion.get (Hyperion.put st key val).1 q buf = Hyperion.get st q buf) ∧
  (∀ q, (Hyperion.del (Hyperion.put st key val).1 q).2 = (Hyperion.del st q).2 ∧
    (Hyperion.del (Hyperion.put st key val).1 q).1.index = (Hyperion.del st q).1.index)

/-- C2 (amended): when `put` returns `ArenaFull` the index slots are
untouched and no record changes, so every subsequent `get`/`delete`
behaves exactly as before the call — but the arena cursor has advanced by
the rounded allocation size, which is observable through subsequent
`put`s. -/
theorem C2_failed_put_effect (st : Store) (key val : List Nat)
    (hfail : (Hyperion.put st key val).2 = Status.ArenaFull) :
    FailedPutEffect st key val := by
  obtain ⟨hk, hv, ha, hshape⟩ := put_arenafull_shape hfail
  refine ⟨by rw [hshape], by rw [hshape], by rw [hshape], by rw [hshape], ?_, ?_⟩
  · intro q buf
    exact get_congr st _ (by rw [hshape]) (by rw [hshape]) q buf
  · intro q
    exact del_congr st _ (by rw [hshape]) (by rw [hshape]) q

theorem C2_failed_put_effect_witness :
    FailedPutEffect (Hyperion.create 100 8) [97] (List.replicate 87 120) :=
  C2_failed_put_effect (Hyperion.create 100 8) [97] (List.replicate 87 120) (by decide)

/-- C2 counterexample: the claim that a failed `put` causes *no observable
state change* is false.  After a `put` that returns `ArenaFull`, the store
differs from the pre-call store, and a subsequent small `put` that would
have succeeded before the failed call now fails. -/
theorem C2_counterexample :
    (Hyperion.put (Hyperion.create 100 8) [97] (List.replicate 87 120)).2
      = Status.ArenaFull ∧
    (Hyperion.put (Hyperion.create 100 8) [97] (List.replicate 87 120)).1
      ≠ Hyperion.create 100 8 ∧
    (Hyperion.put (Hyperion.create 100 8) [98] [99]).2 = Status.OK ∧
    (Hyperion.put (Hyperion.put (Hyperion.create 100 8) [97]
      (List.replicate 87 120)).1 [98] [99]).2 = Status.ArenaFull :=
  ⟨by decide, by decide, by decide, by decide⟩

/-! ## C3: arena exhaustion -/

/-- Iterate `put` of the same key/value `n` times, keeping only the
store. -/
def putNtimes (key val : List Nat) : Nat → Store → Store
  | 0, st => st
  | n + 1, st => putNtimes key val n (Hyperion.put st key val).1

/-- While the arena is exhausted and the 32-bit cursor does not wrap,
iterated `put`s only advance the cursor. -/
theorem putNtimes_exhausted (key val : List Nat)
    (hk : key.length ≤ MAX_KEY) (hv : val.length ≤ MAX_VAL) :
    ∀ (n : Nat) (st : Store),
    st.arena.size < st.arena.cursor →
    st.arena.cursor + neededSize key val * n < 4294967296 →
    putNtimes key val n st = { st with arena := { st.arena with
      cursor := st.arena.cursor + neededSize key val * n } }
  | 0, st, hex, hnw => by simp [putNtimes]
  | n + 1, st, hex, hnw => by
      rw [Nat.mul_succ] at hnw
      have hstep : (st.arena.cursor + neededSize key val) % 4294967296
          = st.arena.cursor + neededSize key val := Nat.mod_eq_of_lt (by omega)
      have hfail : st.arena.size < (st.arena.cursor + neededSize key val) % 4294967296 := by
        rw [hstep]
        omega
      simp only [putNtimes]
      rw [put_alloc_fail hk hv hfail]
      rw [putNtimes_exhausted key val hk hv n _ (by simpa [hstep] using by omega)
        (by simp only [hstep]; omega)]
      have harith : (st.arena.cursor + neededSize key val) % 4294967296
          + neededSize key val * n
          = st.arena.cursor + neededSize key val * (n + 1) := by
        rw [hstep, Nat.mul_succ]
        omega
      simp only [harith]

/-- C3 counterexample: modelling the 32-bit cursor arithmetic as wrap mod
`2^32` (as the claim prescribes), exhaustion is *not* permanent.  On a
64-byte arena the first `put` of a 61-byte payload (rounded allocation
size 72) returns `ArenaFull`; after 59 652 322 further failed `put`s the
cursor reaches 4 294 967 264, and the next identical `put` wraps the
cursor to 40 ≤ 64, so the allocation succeeds and `put` returns `OK`. -/
theorem C3_counterexample :
    (Hyperion.put (Hyperion.create 64 8) [107] (List.replicate 60 120)).2
      = Status.ArenaFull ∧
    (Hyperion.put (putNtimes [107] (List.replicate 60 120) 59652322
      (Hyperion.put (Hyperion.create 64 8) [107] (List.replicate 60 120)).1)
      [107] (List.replicate 60 120)).2 = Status.OK := by
  constructor
  · decide
  · have hst1 : (Hyperion.put (Hyperion.create 64 8) [107] (List.replicate 60 120)).1
        = { arena := { size := 64, cursor := 80, entries := [] }
            index := Index.init 8 } := by decide
    rw [hst1]
    rw [putNtimes_exhausted [107] (List.replicate 60 120) (by decide) (by decide)
        59652322 _ (by decide) (by decide)]
    decide

/-- Per-operation allocation demand of a batch of `put`s. -/
def sumNeeded : List (List Nat × List Nat) → Nat
  | [] => 0
  | (k, v) :: rest => neededSize k v + sumNeeded rest

/-- Run a batch of `put`s, collecting the statuses. -/
def putSeq : Store → List (List Nat × List Nat) → Store × List Status
  | st, [] => (st, [])
  | st, (k, v) :: rest =>
    let r := Hyperion.put st k v
    let rr := putSeq r.1 rest
    (rr.1, r.2 :: rr.2)

/-- Conclusion of the amended C3: on an exhausted store every batched
`put` reports `ArenaFull`, and the index and records — hence all `get`s
and `delete` statuses — are unchanged. -/
def ExhaustionPersists (st : Store) (ops : List (List Nat × List Nat)) : Prop :=
  (∀ s ∈ (putSeq st ops).2, s = Status.ArenaFull) ∧
  (putSeq st ops).1.index = st.index ∧
  (putSeq st ops).1.arena.entries = st.arena.entries ∧
  (∀ q buf, Hyperion.get (putSeq st ops).1 q buf = Hyperion.get st q buf) ∧
  (∀ q, (Hyperion.del (putSeq st ops).1 q).2 = (Hyperion.del st q).2)

theorem exhaustion_persists_core :
    ∀ (ops : List (List Nat × List Nat)) (st : Store),
    st.arena.size < st.arena.cursor →
    st.arena.cursor + sumNeeded ops < 4294967296 →
    (∀ p ∈ ops, p.1.length ≤ MAX_KEY ∧ p.2.length ≤ MAX_VAL) →
    ExhaustionPersists st ops
  | [], st, hex, hnw, hops => by
      exact ⟨by simp [putSeq], rfl, rfl, fun q buf => rfl, fun q => rfl⟩
  | (k, v) :: rest, st, hex, hnw, hops => by
      simp only [sumNeeded] at hnw
      have hkv := hops (k, v) (List.mem_cons_self _ _)
      have hstep : (st.arena.cursor + neededSize k v) % 4294967296
          = st.arena.cursor + neededSize k v := Nat.mod_eq_of_lt (by omega)
      have hfail : st.arena.size < (st.arena.cursor + neededSize k v) % 4294967296 := by
        rw [hstep]
        omega
      have hput := put_alloc_fail hkv.1 hkv.2 hfail
      have ih := exhaustion_persists_core rest (Hyperion.put st k v).1
        (by rw [hput]; simpa [hstep] using by omega)
        (by rw [hput]; simp only [hstep]; omega)
        (fun p hp => hops p (List.mem_cons_of_mem _ hp))
      obtain ⟨ihall, ihidx, ihent, ihget, ihdel⟩ := ih
      have hidx : (putSeq st ((k, v) :: rest)).1.index = st.index := by
        simp only [putSeq]
        rw [ihidx, hput]
      have hent : (putSeq st ((k, v) :: rest)).1.arena.entries = st.arena.entries := by
        simp only [putSeq]
        rw [ihent, hput]
      refine ⟨?_, hidx, hent, ?_, ?_⟩
      · intro s hs
        simp only [putSeq, List.mem_cons] at hs
        rcases hs with rfl | hs
        · rw [hput]
        · exact ihall s hs
      · intro q buf
        exact get_congr st _ hidx hent q buf
      · intro q
        exact (del_congr st _ hidx hent q).1

/-- C3 (amended): once a `put` has returned `ArenaFull`, every subsequent
batch of `put`s (keys/values within the size limits) returns `ArenaFull`,
and `get`/`delete` continue to return their previous results — *provided
the 32-bit cursor does not wrap around* during the batch (fewer than
roughly `(2^32 - cursor) / needed` subsequent calls); with wrap modelled
as the claim prescribes, exhaustion is not permanent (see the
counterexample). -/
theorem C3_exhaustion_persists (st0 : Store) (k0 v0 : List Nat)
    (ops : List (List Nat × List Nat))
    (hfail : (Hyperion.put st0 k0 v0).2 = Status.ArenaFull)
    (hnw : (Hyperion.put st0 k0 v0).1.arena.cursor + sumNeeded ops < 4294967296)
    (hops : ∀ p ∈ ops, p.1.length ≤ MAX_KEY ∧ p.2.length ≤ MAX_VAL) :
    ExhaustionPersists (Hyperion.put st0 k0 v0).1 ops := by
  obtain ⟨hk, hv, ha, hshape⟩ := put_arenafull_shape hfail
  refine exhaustion_persists_core ops _ ?_ hnw hops
  rw [hshape]
  exact ha

theorem C3_exhaustion_persists_witness :
    ExhaustionPersists (Hyperion.put (Hyperion.create 64 8) [107]
      (List.replicate 60 120)).1 [([1], [2]), ([3], [4, 5])] :=
  C3_exhaustion_persists (Hyperion.create 64 8) [107] (List.replicate 60 120)
    [([1], [2]), ([3], [4, 5])] (by decide) (by decide) (by decide)

/-! ## C8: capacity rounding -/

theorem smearStep_testBit (x y k : Nat) (hk : 0 < k)
    (hy : ∀ i, y.testBit i = true ↔ ∃ d, d < k ∧ x.testBit (i + d) = true) :
    ∀ i, (y ||| y >>> k).testBit i = true ↔
      ∃ d, d < 2 * k ∧ x.testBit (i + d) = true := by
  intro i
  rw [Nat.testBit_or, Bool.or_eq_true, hy i, Nat.testBit_shiftRight, hy (k + i)]
  constructor
  · rintro (⟨d, hd, hbit⟩ | ⟨d, hd, hbit⟩)
    · exact ⟨d, by omega, hbit⟩
    · exact ⟨k + d, by omega, by rwa [show i + (k + d) = k + i + d by omega]⟩
  · rintro ⟨d, hd, hbit⟩
    by_cases hdk : d < k
    · exact Or.inl ⟨d, hdk, hbit⟩
    · exact Or.inr ⟨d - k, by omega, by rwa [show k + i + (d - k) = i + d by omega]⟩

/-- The most significant bit of a positive number is set. -/
theorem testBit_size_pred {x : Nat} (hx : 0 < x) : x.testBit (x.size - 1) = true := by
  have hub : x < 2 ^ x.size := Nat.lt_size_self x
  have hlb : 2 ^ (x.size - 1) ≤ x := by
    have hsz : 0 < x.size := Nat.size_pos.mpr hx
    exact Nat.lt_size.mp (by omega)
  have hppos : 0 < 2 ^ (x.size - 1) := Nat.pos_pow_of_pos _ (by omega)
  have hdiv1 : x / 2 ^ (x.size - 1) = 1 := by
    have h2 : x < 2 ^ (x.size - 1) * 2 := by
      have : 2 ^ (x.size - 1) * 2 = 2 ^ (x.size - 1 + 1) := by
        rw [Nat.pow_succ]
      rw [this]
      have hsz : 0 < x.size := Nat.size_pos.mpr hx
      have : x.size - 1 + 1 = x.size := by omega
      rw [this]
      exact hub
    have hge : 1 ≤ x / 2 ^ (x.size - 1) := (Nat.le_div_iff_mul_le hppos).mpr (by omega)
    have hlt : x / 2 ^ (x.size - 1) < 2 := Nat.div_lt_of_lt_mul h2
    omega
  rw [Nat.testBit_to_div_mod, hdiv1]
  decide

/-- The or-shift smearing cascade of `next_pow2`. -/
def smear32 (x : Nat) : Nat :=
  let y1 := x ||| x >>> 1
  let y2 := y1 ||| y1 >>> 2
  let y3 := y2 ||| y2 >>> 4
  let y4 := y3 ||| y3 >>> 8
  y4 ||| y4 >>> 16

theorem next_pow2_as_smear (v : Nat) :
    Index.next_pow2 v = (smear32 ((v + 4294967295) % 4294967296) + 1) % 4294967296 := rfl

/-- The five or-shift smearing steps set exactly the bits below the most
significant bit, for 32-bit inputs. -/
theorem smear32_eq (x : Nat) (hx : 0 < x) (hlt : x < 4294967296) :
    smear32 x = 2 ^ x.size - 1 := by
  unfold smear32
  have h0 : ∀ i, x.testBit i = true ↔ ∃ d, d < 1 ∧ x.testBit (i + d) = true := by
    intro i
    constructor
    · intro hb
      exact ⟨0, by omega, by simpa using hb⟩
    · rintro ⟨d, hd, hb⟩
      have : d = 0 := by omega
      subst this
      simpa using hb
  have h1 := smearStep_testBit x x 1 (by omega) h0
  have h2 := smearStep_testBit x _ 2 (by omega) h1
  have h4 := smearStep_testBit x _ 4 (by omega) h2
  have h8 := smearStep_testBit x _ 8 (by omega) h4
  have h16 := smearStep_testBit x _ 16 (by omega) h8
  have hsize : x.size ≤ 32 := Nat.size_le.mpr hlt
  refine Nat.eq_of_testBit_eq fun i => ?_
  rw [Nat.testBit_two_pow_sub_one]
  by_cases hi : i < x.size
  · have hbit : x.testBit (i + (x.size - 1 - i)) = true := by
      rw [show i + (x.size - 1 - i) = x.size - 1 by omega]
      exact testBit_size_pred hx
    simp only [decide_eq_true_eq]
    rw [(h16 i).mpr ⟨x.size - 1 - i, by omega, hbit⟩]
    simp [hi]
  · have hnone : ∀ d, d < 32 → x.testBit (i + d) = false := by
      intro d hd
      refine Nat.testBit_lt_two_pow (Nat.lt_of_lt_of_le (Nat.lt_size_self x) ?_)
      exact Nat.pow_le_pow_right (by omega) (by omega)
    have : ((x ||| x >>> 1 ||| (x ||| x >>> 1) >>> 2 |||
        (x ||| x >>> 1 ||| (x ||| x >>> 1) >>> 2) >>> 4 |||
        (x ||| x >>> 1 ||| (x ||| x >>> 1) >>> 2 |||
          (x ||| x >>> 1 ||| (x ||| x >>> 1) >>> 2) >>> 4) >>> 8) |||
        (x ||| x >>> 1 ||| (x ||| x >>> 1) >>> 2 |||
          (x ||| x >>> 1 ||| (x ||| x >>> 1) >>> 2) >>> 4 |||
          (x ||| x >>> 1 ||| (x ||| x >>> 1) >>> 2 |||
            (x ||| x >>> 1 ||| (x ||| x >>> 1) >>> 2) >>> 4) >>> 8) >>> 16).testBit i
        = false := by
      by_contra hc
      rw [Bool.not_eq_false] at hc
      obtain ⟨d, hd, hbit⟩ := (h16 i).mp hc
      rw [hnone d hd] at hbit
      exact Bool.noConfusion hbit
    simp only [this]
    simp [hi]

/-- For requested values up to `2^31`, `next_pow2` computes
`2 ^ size (v - 1)`. -/
theorem next_pow2_eq (v : Nat) (h1 : 1 ≤ v) (h2 : v ≤ 2 ^ 31) :
    Index.next_pow2 v = 2 ^ (v - 1).size := by
  rw [next_pow2_as_smear]
  have hdec : (v + 4294967295) % 4294967296 = v - 1 := by
    have : v + 4294967295 = (v - 1) + 4294967296 := by omega
    rw [this, Nat.add_mod_right]
    exact Nat.mod_eq_of_lt (by norm_num at h2 ⊢; omega)
  rw [hdec]
  rcases Nat.eq_zero_or_pos (v - 1) with h0 | hpos
  · rw [h0]
    simp [Nat.size_eq_zero.mpr rfl]
    decide
  · have hv1lt : v - 1 < 4294967296 := by norm_num at h2 ⊢; omega
    rw [smear32_eq (v - 1) hpos hv1lt]
    have hszle : (v - 1).size ≤ 31 := by
      rw [Nat.size_le]
      have : (2:Nat) ^ 31 = 2147483648 := by norm_num
      omega
    have hle : 2 ^ (v - 1).size ≤ 2 ^ 31 := Nat.pow_le_pow_right (by omega) hszle
    have hpow : 0 < 2 ^ (v - 1).size := Nat.pos_pow_of_pos _ (by omega)
    rw [Nat.sub_add_cancel hpow]
    exact Nat.mod_eq_of_lt (by norm_num at hle ⊢; omega)

/-- `c` is the smallest power of two that is at least `m`. -/
def IsLeastPow2 (c m : Nat) : Prop :=
  (∃ n, c = 2 ^ n) ∧ m ≤ c ∧ ∀ c2, (∃ n, c2 = 2 ^ n) → m ≤ c2 → c ≤ c2

theorem isLeastPow2_two_pow_size (m : Nat) (hm : 0 < m) :
    IsLeastPow2 (2 ^ (m - 1).size) m := by
  refine ⟨⟨(m - 1).size, rfl⟩, ?_, ?_⟩
  · have := Nat.lt_size_self (m - 1)
    omega
  · rintro c2 ⟨n, rfl⟩ hle
    refine Nat.pow_le_pow_right (by omega) (Nat.size_le.mpr (by omega))

/-- C8 (amended): for every requested slot count `s ≤ 2^31`, the index
capacity after initialisation is the smallest power of two that is at
least `max s 8`, and the probe mask is that capacity minus one.  (For
`s > 2^31` the 32-bit `next_pow2` computation overflows and yields
capacity 0 — see the counterexample.) -/
theorem C8_init_capacity (s : Nat) (hs : s ≤ 2 ^ 31) :
    IsLeastPow2 (Index.init s).capacity (max s 8) ∧
    (Index.init s).mask = (Index.init s).capacity - 1 ∧
    (Index.init s).slots.length = (Index.init s).capacity := by
  have hm1 : 1 ≤ max s 8 := by omega
  have hm2 : max s 8 ≤ 2 ^ 31 := by
    have : (8:Nat) ≤ 2 ^ 31 := by norm_num
    omega
  have hcap : (Index.init s).capacity = 2 ^ (max s 8 - 1).size := by
    simp only [Index.init]
    exact next_pow2_eq _ hm1 hm2
  refine ⟨hcap ▸ isLeastPow2_two_pow_size _ (by omega), ?_, by simp [Index.init]⟩
  have hcappos : 0 < (Index.init s).capacity := by
    rw [hcap]
    exact Nat.pos_pow_of_pos _ (by omega)
  have hcaplt : (Index.init s).capacity ≤ 2 ^ 31 := by
    rw [hcap]
    refine Nat.pow_le_pow_right (by omega) (Nat.size_le.mpr (by omega))
  show (Index.next_pow2 (max s 8) + 4294967295) % 4294967296 = _
  have hcap2 : Index.next_pow2 (max s 8) = (Index.init s).capacity := rfl
  rw [hcap2]
  have : (Index.init s).capacity + 4294967295
      = ((Index.init s).capacity - 1) + 4294967296 := by omega
  rw [this, Nat.add_mod_right]
  exact Nat.mod_eq_of_lt (by norm_num at hcaplt ⊢; omega)

theorem C8_init_capacity_witness :
    IsLeastPow2 (Index.init 20).capacity (max 20 8) ∧
    (Index.init 20).mask = (Index.init 20).capacity - 1 ∧
    (Index.init 20).slots.length = (Index.init 20).capacity :=
  C8_init_capacity 20 (by norm_num)

/-- C8 counterexample: for the requested slot count `2^31 + 1` the uint32
`next_pow2` overflows and the capacity is 0, not the smallest power of two
at least `max s 8` (which would be `2^32` and does not fit). -/
theorem C8_counterexample :
    ¬ IsLeastPow2 (Index.init 2147483649).capacity (max 2147483649 8) := by
  rintro ⟨-, hle, -⟩
  have hcap0 : (Index.init 2147483649).capacity = 0 := by decide
  rw [hcap0] at hle
  have : max 2147483649 8 = 2147483649 := by decide
  omega

/-! ## C7: the hash function -/

/-- The hash as the spec words it: start with `offset_basis = 2166136261`;
for each byte `b` in order, `h = (h XOR b) * 16777619` with unsigned
32-bit wraparound. -/
def fnv1aSpec : Nat → List Nat → Nat
  | h, [] => h
  | h, b :: rest => fnv1aSpec (((h ^^^ b) * 16777619) % 4294967296) rest

theorem foldl_eq_fnv1aSpec : ∀ (data : List Nat) (h : Nat),
    data.foldl (fun h b => ((h ^^^ b) * 16777619) % 4294967296) h = fnv1aSpec h data
  | [], h => rfl
  | b :: rest, h => by
      simp only [List.foldl_cons, fnv1aSpec]
      exact foldl_eq_fnv1aSpec rest _

theorem put_ok_sizes {st : Store} {key val : List Nat}
    (hOK : (Hyperion.put st key val).2 = Status.OK) :
    key.length ≤ MAX_KEY ∧ val.length ≤ MAX_VAL := by
  by_cases hk : key.length ≤ MAX_KEY
  · by_cases hv : val.length ≤ MAX_VAL
    · exact ⟨hk, hv⟩
    · have heq : Hyperion.put st key val = (st, Status.ValTooLong) := by
        unfold Hyperion.put
        rw [if_neg (Nat.not_lt.mpr hk), if_pos (by omega)]
      rw [heq] at hOK
      exact Status.noConfusion hOK
  · have heq : Hyperion.put st key val = (st, Status.KeyTooLong) := by
      unfold Hyperion.put
      rw [if_pos (by omega)]
    rw [heq] at hOK
    exact Status.noConfusion hOK

/-- C7: the hash used by `put`/`get`/`delete` is 32-bit FNV-1a exactly as
the spec describes it; `find` probes starting from the home bucket
`h &&& mask` (the first probed position), and a successful `put` stores a
slot whose `hash_tag` is the high 8 bits `h >>> 24` (see `putNewSlot`). -/
theorem C7_fnv1a_hash :
    (∀ data : List Nat, Index.hash data = fnv1aSpec 2166136261 data) ∧
    (∀ (idx : Index) (h klen : Nat) (eq : Slot → Bool) (w : Nat),
      idx.mask = 2 ^ w - 1 →
      (idx.find h klen eq =
        findList idx.slots (slotMatch (h >>> 24) klen eq)
          (probeList idx.mask (h &&& idx.mask) idx.capacity) none
          (((h &&& idx.mask) + idx.capacity) &&& idx.mask) ∧
        (0 < idx.capacity →
          (probeList idx.mask (h &&& idx.mask) idx.capacity).head?
            = some (h &&& idx.mask)))) ∧
    (∀ (st : Store) (key val : List Nat), StoreWF st →
      (Hyperion.put st key val).2 = Status.OK →
      (Hyperion.put st key val).1.index.slots.getD (putFind st key val).1 Slot.emptySlot
        = putNewSlot st key val) := by
  refine ⟨fun data => foldl_eq_fnv1aSpec data 2166136261, ?_, ?_⟩
  · intro idx h klen eq w hmask
    refine ⟨find_eq_findList idx h klen eq w hmask, fun hcap => ?_⟩
    exact probeList_head _ _ _ hcap (by rw [hmask]; exact and_mask_idem _ w)
  · intro st key val hWF hOK
    obtain ⟨hk, hv⟩ := put_ok_sizes hOK
    obtain ⟨⟨w, hmask, hcap⟩, hlen, -, -, -⟩ := hWF
    have hok := put_ok_cond hk hv hOK
    rw [put_alloc_ok hk hv hok]
    have h2w : 0 < 2 ^ w := Nat.pos_pow_of_pos w (by omega)
    have hile : (putFind st key val).1 ≤ st.index.mask :=
      find_fst_le st.index (Index.hash key) key.length
        (keyEq (putArena st key val) (Index.hash key) key)
    exact getD_set_self (by omega)

theorem C7_fnv1a_hash_witness :
    Index.hash [104, 105] = fnv1aSpec 2166136261 [104, 105] ∧
    (Index.init 8).find 12345 2 (fun _ => false) =
      findList (Index.init 8).slots (slotMatch (12345 >>> 24) 2 (fun _ => false))
        (probeList (Index.init 8).mask (12345 &&& (Index.init 8).mask)
          (Index.init 8).capacity) none
        (((12345 &&& (Index.init 8).mask) + (Index.init 8).capacity) &&&
          (Index.init 8).mask) ∧
    (Hyperion.put (Hyperion.create 1024 8) [1] [2]).1.index.slots.getD
      (putFind (Hyperion.create 1024 8) [1] [2]).1 Slot.emptySlot
      = putNewSlot (Hyperion.create 1024 8) [1] [2] :=
  ⟨C7_fnv1a_hash.1 [104, 105],
   (C7_fnv1a_hash.2.1 (Index.init 8) 12345 2 (fun _ => false) 3 (by decide)).1,
   C7_fnv1a_hash.2.2 (Hyperion.create 1024 8) [1] [2]
     ⟨⟨3, by decide, by decide⟩, by decide, by decide, by decide, by decide⟩
     (by decide)⟩

/-! ## C6: delete semantics -/

/-- Position `q` of the index holds a slot that fully matches `key`
(tag, cached length, and deep comparison through the arena). -/
def Matches (st : Store) (key : List Nat) (q : Nat) : Prop :=
  slotMatch (Index.hash key >>> 24) key.length
    (keyEq st.arena (Index.hash key) key)
    (st.index.slots.getD q Slot.emptySlot) = true

/-- At most one index position matches `key` (invariant I3 of the spec;
it holds in every reachable state). -/
def UniqueMatch (st : Store) (key : List Nat) : Prop :=
  ∀ p, p < st.index.capacity → ∀ q, q < st.index.capacity →
    Matches st key p → Matches st key q → p = q

instance (st : Store) (key : List Nat) (q : Nat) : Decidable (Matches st key q) := by
  unfold Matches
  infer_instance

instance (st : Store) (key : List Nat) : Decidable (UniqueMatch st key) := by
  unfold UniqueMatch
  infer_instance

theorem slotMatch_emptySlot (tag klen : Nat) (a : Arena) (h : Nat) (key : List Nat) :
    slotMatch tag klen (keyEq a h key) Slot.emptySlot = false := by
  simp [slotMatch, keyEq, Slot.isValid, Slot.emptySlot, Slot.OFF_EMPTY, Slot.OFF_TOMB]

theorem slotMatch_makeTombstone (tag klen : Nat) (a : Arena) (h : Nat)
    (key : List Nat) (s : Slot) :
    slotMatch tag klen (keyEq a h key) s.makeTombstone = false := by
  simp [slotMatch, keyEq, Slot.isValid, Slot.makeTombstone, Slot.OFF_TOMB]

/-- C6: `delete(k)` returns `OK` iff `find` reports `found = true`; in
that case the found slot becomes a tombstone, every other slot is
untouched, and a following `get(k)` returns `NotFound` (leaving the
buffer untouched); when `k` is absent, `delete` returns `NotFound` and
changes nothing. -/
theorem C6_delete_semantics (st : Store) (key : List Nat)
    (hWF : StoreWF st) (hUnique : UniqueMatch st key) :
    ((Hyperion.del st key).2 = Status.OK ↔
      (st.index.find (Index.hash key) key.length
        (keyEq st.arena (Index.hash key) key)).2 = true) ∧
    ((st.index.find (Index.hash key) key.length
        (keyEq st.arena (Index.hash key) key)).2 = true →
      (Hyperion.del st key).1.index.slots.getD
          (st.index.find (Index.hash key) key.length
            (keyEq st.arena (Index.hash key) key)).1 Slot.emptySlot
        = (st.index.slots.getD
            (st.index.find (Index.hash key) key.length
              (keyEq st.arena (Index.hash key) key)).1 Slot.emptySlot).makeTombstone ∧
      (∀ q, q ≠ (st.index.find (Index.hash key) key.length
          (keyEq st.arena (Index.hash key) key)).1 →
        (Hyperion.del st key).1.index.slots.getD q Slot.emptySlot
          = st.index.slots.getD q Slot.emptySlot) ∧
      (∀ buf, Hyperion.get (Hyperion.del st key).1 key buf = (Status.NotFound, buf))) ∧
    ((st.index.find (Index.hash key) key.length
        (keyEq st.arena (Index.hash key) key)).2 = false →
      Hyperion.del st key = (st, Status.NotFound)) := by
  obtain ⟨⟨w, hmask, hcap⟩, hlen, hc8, hclt, hslt⟩ := hWF
  have h2w : 0 < 2 ^ w := Nat.pos_pow_of_pos w (by omega)
  rcases hfr : st.index.find (Index.hash key) key.length
      (keyEq st.arena (Index.hash key) key) with ⟨m, found⟩
  have hmle : m ≤ st.index.mask := by
    have hb := find_fst_le st.index (Index.hash key) key.length
      (keyEq st.arena (Index.hash key) key)
    rw [hfr] at hb
    exact hb
  have hmlen : m < st.index.slots.length := by omega
  cases found
  · -- not found: delete does nothing
    have hdel : Hyperion.del st key = (st, Status.NotFound) := by
      simp only [Hyperion.del]
      rw [hfr]
      simp
    refine ⟨?_, ?_, fun _ => hdel⟩
    · rw [hdel]
      simp
    · intro hcontra
      exact Bool.noConfusion hcontra
  · -- found: tombstone the slot
    have hdel : Hyperion.del st key = ({ st with index := { st.index with
        slots := st.index.slots.set m
          (st.index.slots.getD m Slot.emptySlot).makeTombstone } }, Status.OK) := by
      simp only [Hyperion.del]
      rw [hfr]
      simp
    -- the found slot matches
    have hchar := find_eq_findList st.index (Index.hash key) key.length
      (keyEq st.arena (Index.hash key) key) w hmask
    rw [hchar] at hfr
    obtain ⟨pre, post, hsplit, hpre, hjemp, hjtomb, hjm⟩ :=
      findList_found_decomp st.index.slots _ (slotMatch_tomb _ _ _ _ _) _ _ _ _ hfr
    refine ⟨by rw [hdel]; simp, fun _ => ⟨?_, ?_, ?_⟩,
      fun hcontra => Bool.noConfusion hcontra⟩
    · rw [hdel]
      exact getD_set_self hmlen
    · intro q hq
      rw [hdel]
      exact getD_set_ne fun he => hq he.symm
    · intro buf
      have hnomatch : ∀ pos, slotMatch (Index.hash key >>> 24) key.length
          (keyEq st.arena (Index.hash key) key)
          ((st.index.slots.set m
            (st.index.slots.getD m Slot.emptySlot).makeTombstone).getD pos
              Slot.emptySlot) = false := by
        intro pos
        by_cases hpm : pos = m
        · subst hpm
          rw [getD_set_self hmlen]
          exact slotMatch_makeTombstone _ _ _ _ _ _
        · rw [getD_set_ne fun he => hpm he.symm]
          by_cases hplen : pos < st.index.slots.length
          · by_contra hc
            rw [Bool.not_eq_false] at hc
            have : pos = m := hUnique pos (by omega) m (by omega) hc hjm
            exact hpm this
          · rw [List.getD_eq_default _ _ (by omega)]
            exact slotMatch_emptySlot _ _ _ _ _
      have hfind2 : ((Hyperion.del st key).1.index.find (Index.hash key) key.length
          (keyEq (Hyperion.del st key).1.arena (Index.hash key) key)).2 = false := by
        rw [hdel]
        exact findAux_snd_false _ _ _ _ _ hnomatch _ _ _
      simp only [Hyperion.get]
      rw [if_neg (by rw [hfind2]; exact Bool.false_ne_true)]

def c6Store : Store := (Hyperion.put (Hyperion.create 1024 8) [1] [2]).1

theorem C6_delete_semantics_witness :
    (Hyperion.del c6Store [1]).2 = Status.OK ∧
    Hyperion.get (Hyperion.del c6Store [1]).1 [1] [9] = (Status.NotFound, [9]) :=
  ⟨(C6_delete_semantics c6Store [1]
      ⟨⟨3, by decide, by decide⟩, by decide, by decide, by decide, by decide⟩
      (by decide)).1.mpr (by decide),
   ((C6_delete_semantics c6Store [1]
      ⟨⟨3, by decide, by decide⟩, by decide, by decide, by decide, by decide⟩
      (by decide)).2.1 (by decide)).2.2 [9]⟩

/-! ## C5: tombstone reuse -/

/-- Number of slots that are not `EMPTY` (valid or tombstone). -/
def nonEmptySlotCount (st : Store) : Nat :=
  st.index.slots.countP (fun s => !s.isEmptySlot)

theorem countP_set_same (p : Slot → Bool) :
    ∀ (l : List Slot) (i : Nat) (a : Slot),
    i < l.length → p (l.getD i Slot.emptySlot) = p a →
    (l.set i a).countP p = l.countP p
  | [], i, a, hi, hp => by simp at hi
  | x :: xs, 0, a, hi, hp => by
      simp only [List.set_cons_zero, List.countP_cons]
      simp only [List.getD_cons_zero] at hp
      rw [hp]
  | x :: xs, i + 1, a, hi, hp => by
      simp only [List.set_cons_succ, List.countP_cons]
      rw [countP_set_same p xs i a (by simpa using hi) (by simpa using hp)]

theorem makeTombstone_isTombstone (s : Slot) : s.makeTombstone.isTombstone = true := by
  simp [Slot.makeTombstone, Slot.isTombstone]

theorem neededSize_mod8 (key val : List Nat) : neededSize key val % 8 = 0 := by
  unfold neededSize
  rw [show (8:Nat) = 2 ^ 3 by norm_num, ← Nat.and_pow_two_sub_one_eq_mod, Nat.and_assoc]
  have h0 : (4294967288 : Nat) &&& (2 ^ 3 - 1) = 0 := by decide
  rw [h0, Nat.and_zero]

/-- Every `put` (successful or not) preserves store well-formedness. -/
theorem storeWF_put (st : Store) (key val : List Nat) (hWF : StoreWF st) :
    StoreWF (Hyperion.put st key val).1 := by
  obtain ⟨hpow, hlen, hc8, hclt, hslt⟩ := hWF
  have hcur : ((st.arena.cursor + neededSize key val) % 4294967296) % 8 = 0 := by
    rw [Nat.mod_mod_of_dvd _ (by norm_num)]
    have := neededSize_mod8 key val
    omega
  have hcurlt : (st.arena.cursor + neededSize key val) % 4294967296 < 4294967296 :=
    Nat.mod_lt _ (by norm_num)
  by_cases hk : key.length ≤ MAX_KEY
  · by_cases hv : val.length ≤ MAX_VAL
    · by_cases ha : st.arena.size < (st.arena.cursor + neededSize key val) % 4294967296
      · rw [put_alloc_fail hk hv ha]
        exact ⟨hpow, hlen, hcur, hcurlt, hslt⟩
      · rw [put_alloc_ok hk hv (by omega)]
        refine ⟨hpow, ?_, hcur, hcurlt, hslt⟩
        simpa [putArena] using hlen
    · have heq : Hyperion.put st key val = (st, Status.ValTooLong) := by
        unfold Hyperion.put
        rw [if_neg (Nat.not_lt.mpr hk), if_pos (by omega)]
      rw [heq]
      exact ⟨hpow, hlen, hc8, hclt, hslt⟩
  · have heq : Hyperion.put st key val = (st, Status.KeyTooLong) := by
      unfold Hyperion.put
      rw [if_pos (by omega)]
    rw [heq]
    exact ⟨hpow, hlen, hc8, hclt, hslt⟩

/-- `del` preserves store well-formedness. -/
theorem storeWF_del (st : Store) (key : List Nat) (hWF : StoreWF st) :
    StoreWF (Hyperion.del st key).1 := by
  obtain ⟨hpow, hlen, hc8, hclt, hslt⟩ := hWF
  simp only [Hyperion.del]
  split
  · exact ⟨hpow, by simpa using hlen, hc8, hclt, hslt⟩
  · exact ⟨hpow, hlen, hc8, hclt, hslt⟩

/-- A `del` that returns `OK` found its key and tombstoned that slot. -/
theorem del_ok_shape {st : Store} {key : List Nat}
    (h : (Hyperion.del st key).2 = Status.OK) :
    (st.index.find (Index.hash key) key.length
      (keyEq st.arena (Index.hash key) key)).2 = true ∧
    (Hyperion.del st key).1 = { st with index := { st.index with
      slots := st.index.slots.set
        (st.index.find (Index.hash key) key.length
          (keyEq st.arena (Index.hash key) key)).1
        ((st.index.slots.getD
          (st.index.find (Index.hash key) key.length
            (keyEq st.arena (Index.hash key) key)).1
          Slot.emptySlot).makeTombstone) } } := by
  by_cases hf : (st.index.find (Index.hash key) key.length
      (keyEq st.arena (Index.hash key) key)).2 = true
  · refine ⟨hf, ?_⟩
    simp only [Hyperion.del]
    rw [if_pos hf]
  · simp only [Hyperion.del] at h
    rw [if_neg hf] at h
    exact Status.noConfusion h

/-- After a successful `delete`, the slot chosen by a subsequent `put` of
the same key is never an `EMPTY` slot: it is either an existing match or a
recycled tombstone. -/
theorem putFind_after_del_nonEmpty (st : Store) (key val : List Nat)
    (hWF : StoreWF st) (hdel : (Hyperion.del st key).2 = Status.OK) :
    ((Hyperion.del st key).1.index.slots.getD
      (putFind (Hyperion.del st key).1 key val).1 Slot.emptySlot).isEmptySlot = false := by
  obtain ⟨⟨w, hmask, hcap⟩, hlen, hc8, hclt, hslt⟩ := hWF
  have h2w : 0 < 2 ^ w := Nat.pos_pow_of_pos w (by omega)
  obtain ⟨hf1, hshape⟩ := del_ok_shape hdel
  rcases hfd : st.index.find (Index.hash key) key.length
      (keyEq st.arena (Index.hash key) key) with ⟨m, f1⟩
  rw [hfd] at hf1 hshape
  simp only at hf1 hshape
  subst hf1
  have hmle : m ≤ st.index.mask := by
    have hb := find_fst_le st.index (Index.hash key) key.length
      (keyEq st.arena (Index.hash key) key)
    rw [hfd] at hb
    exact hb
  have hmlen : m < st.index.slots.length := by omega
  have hnodup : (probeList st.index.mask (Index.hash key &&& st.index.mask)
      st.index.capacity).Nodup :=
    probeList_nodup _ _ _ w hmask (by rw [hcap])
  have hchar := find_eq_findList st.index (Index.hash key) key.length
    (keyEq st.arena (Index.hash key) key) w hmask
  rw [hfd] at hchar
  obtain ⟨pre, post, hsplit, hpre, hjemp, hjtomb, hjm⟩ :=
    findList_found_decomp st.index.slots _ (slotMatch_tomb _ _ _ _ _) _ _ _ _ hchar.symm
  rw [hshape]
  rcases hfd2 : putFind { st with index := { st.index with
      slots := st.index.slots.set m
        (st.index.slots.getD m Slot.emptySlot).makeTombstone } } key val with ⟨j, f2⟩
  have hchar2 : putFind { st with index := { st.index with
      slots := st.index.slots.set m
        (st.index.slots.getD m Slot.emptySlot).makeTombstone } } key val
      = findList (st.index.slots.set m
          (st.index.slots.getD m Slot.emptySlot).makeTombstone)
        (slotMatch (Index.hash key >>> 24) key.length
          (keyEq (putArena { st with index := { st.index with
            slots := st.index.slots.set m
              (st.index.slots.getD m Slot.emptySlot).makeTombstone } } key val)
            (Index.hash key) key))
        (probeList st.index.mask (Index.hash key &&& st.index.mask) st.index.capacity)
        none
        (((Index.hash key &&& st.index.mask) + st.index.capacity) &&& st.index.mask) := by
    unfold putFind
    exact find_eq_findList _ _ _ _ w hmask
  rw [hfd2] at hchar2
  cases f2
  · -- not found: the reported slot is a recycled tombstone
    have hpre2 : ∀ q ∈ pre, ((st.index.slots.set m
        (st.index.slots.getD m Slot.emptySlot).makeTombstone).getD q
          Slot.emptySlot).isEmptySlot = false := by
      intro q hq
      have hqne : m ≠ q := fun he =>
        (nodup_middle_not_mem (hsplit ▸ hnodup)) (he ▸ hq)
      rw [getD_set_ne hqne]
      exact (hpre q hq).1
    have hmtomb : ((st.index.slots.set m
        (st.index.slots.getD m Slot.emptySlot).makeTombstone).getD m
          Slot.emptySlot).isTombstone = true := by
      rw [getD_set_self hmlen]
      exact makeTombstone_isTombstone _
    have hj_tomb := findList_tomb_choice _ _ pre post _ j m hpre2 hmtomb
      (by rw [← hsplit]; exact hchar2.symm)
    simpa using Slot.isEmptySlot_eq_false_of_isTombstone hj_tomb
  · -- found: the reported slot is a live matching slot
    obtain ⟨pre2, post2, hsplit2, hpre2, hjemp2, hjtomb2, hjm2⟩ :=
      findList_found_decomp _ _ (slotMatch_tomb _ _ _ _ _) _ _ _ _ hchar2.symm
    simpa using hjemp2

/-- A successful `put` whose chosen slot was already non-`EMPTY` leaves
the number of non-`EMPTY` slots unchanged. -/
theorem put_count_preserved (st : Store) (key val : List Nat)
    (hWF : StoreWF st) (hk : key.length ≤ MAX_KEY) (hv : val.length ≤ MAX_VAL)
    (hok : (st.arena.cursor + neededSize key val) % 4294967296 ≤ st.arena.size)
    (hne : (st.index.slots.getD (putFind st key val).1 Slot.emptySlot).isEmptySlot
      = false) :
    nonEmptySlotCount (Hyperion.put st key val).1 = nonEmptySlotCount st := by
  obtain ⟨⟨w, hmask, hcap⟩, hlen, hc8, hclt, hslt⟩ := hWF
  have h2w : 0 < 2 ^ w := Nat.pos_pow_of_pos w (by omega)
  rw [put_alloc_ok hk hv hok]
  have hjle : (putFind st key val).1 ≤ st.index.mask :=
    find_fst_le st.index (Index.hash key) key.length
      (keyEq (putArena st key val) (Index.hash key) key)
  have hjlen : (putFind st key val).1 < st.index.slots.length := by omega
  have hcurTomb : st.arena.cursor < Slot.OFF_EMPTY := by
    simp only [Slot.OFF_EMPTY]
    omega
  simp only [nonEmptySlotCount]
  refine countP_set_same _ _ _ _ hjlen ?_
  rw [hne]
  have : (putNewSlot st key val).isEmptySlot = false := by
    simp only [putNewSlot, Slot.isEmptySlot, Slot.OFF_EMPTY, beq_eq_false_iff_ne, ne_eq]
    simp only [Slot.OFF_EMPTY] at hcurTomb
    omega
  rw [this]

/-- A successful `delete` leaves the number of non-`EMPTY` slots
unchanged: a valid slot becomes a tombstone, which is still
non-`EMPTY`. -/
theorem del_count_preserved (st : Store) (key : List Nat)
    (hWF : StoreWF st) (hdel : (Hyperion.del st key).2 = Status.OK) :
    nonEmptySlotCount (Hyperion.del st key).1 = nonEmptySlotCount st := by
  obtain ⟨⟨w, hmask, hcap⟩, hlen, hc8, hclt, hslt⟩ := hWF
  have h2w : 0 < 2 ^ w := Nat.pos_pow_of_pos w (by omega)
  obtain ⟨hf1, hshape⟩ := del_ok_shape hdel
  rcases hfd : st.index.find (Index.hash key) key.length
      (keyEq st.arena (Index.hash key) key) with ⟨m, f1⟩
  rw [hfd] at hf1 hshape
  simp only at hf1 hshape
  subst hf1
  have hmle : m ≤ st.index.mask := by
    have hb := find_fst_le st.index (Index.hash key) key.length
      (keyEq st.arena (Index.hash key) key)
    rw [hfd] at hb
    exact hb
  have hmlen : m < st.index.slots.length := by omega
  have hchar := find_eq_findList st.index (Index.hash key) key.length
    (keyEq st.arena (Index.hash key) key) w hmask
  rw [hfd] at hchar
  obtain ⟨pre, post, hsplit, hpre, hjemp, hjtomb, hjm⟩ :=
    findList_found_decomp st.index.slots _ (slotMatch_tomb _ _ _ _ _) _ _ _ _ hchar.symm
  rw [hshape]
  simp only [nonEmptySlotCount]
  refine countP_set_same _ _ _ _ hmlen ?_
  rw [hjemp]
  rw [Slot.isEmptySlot_eq_false_of_isTombstone (makeTombstone_isTombstone _)]

/-- C5: after `put(k, v); delete(k); put(k, v2)` (all succeeding,
single-threaded), `get(k)` returns `OK` with `v2`, and the number of
non-`EMPTY` index slots equals what it was after the initial `put` — the
tombstoned slot is recycled rather than a fresh slot consumed. -/
theorem C5_tombstone_reuse (st0 : Store) (key v1 v2 buf : List Nat)
    (hWF : StoreWF st0)
    (hk : key.length ≤ 255) (hv1 : v1.length ≤ 65535) (hv2 : v2.length ≤ 65535)
    (h1 : (Hyperion.put st0 key v1).2 = Status.OK)
    (h2 : (Hyperion.del (Hyperion.put st0 key v1).1 key).2 = Status.OK)
    (h3 : (Hyperion.put (Hyperion.del (Hyperion.put st0 key v1).1 key).1 key v2).2
      = Status.OK) :
    Hyperion.get
      (Hyperion.put (Hyperion.del (Hyperion.put st0 key v1).1 key).1 key v2).1 key buf
      = (Status.OK, v2) ∧
    nonEmptySlotCount
      (Hyperion.put (Hyperion.del (Hyperion.put st0 key v1).1 key).1 key v2).1
      = nonEmptySlotCount (Hyperion.put st0 key v1).1 := by
  have hWF1 : StoreWF (Hyperion.put st0 key v1).1 := storeWF_put _ _ _ hWF
  have hWF2 : StoreWF (Hyperion.del (Hyperion.put st0 key v1).1 key).1 :=
    storeWF_del _ _ hWF1
  refine ⟨roundtrip_core _ key v2 buf hWF2 hk hv2 (put_ok_cond hk hv2 h3), ?_⟩
  rw [put_count_preserved _ key v2 hWF2 hk hv2 (put_ok_cond hk hv2 h3)
    (putFind_after_del_nonEmpty _ key v2 hWF1 h2)]
  exact del_count_preserved _ key hWF1 h2

theorem C5_tombstone_reuse_witness :
    Hyperion.get (Hyperion.put (Hyperion.del
      (Hyperion.put (Hyperion.create 1024 8) [1] [2]).1 [1]).1 [1] [3, 4]).1 [1] []
      = (Status.OK, [3, 4]) ∧
    nonEmptySlotCount (Hyperion.put (Hyperion.del
      (Hyperion.put (Hyperion.create 1024 8) [1] [2]).1 [1]).1 [1] [3, 4]).1
      = nonEmptySlotCount (Hyperion.put (Hyperion.create 1024 8) [1] [2]).1 :=
  C5_tombstone_reuse (Hyperion.create 1024 8) [1] [2] [3, 4] []
    ⟨⟨3, by decide, by decide⟩, by decide, by decide, by decide, by decide⟩
    (by decide) (by decide) (by decide) (by decide) (by decide) (by decide)

/-! ## C4: independence of distinct keys -/

/-- An operation on a fixed key: overwrite with a value, or delete. -/
inductive KVOp where
  | putOp (val : List Nat)
  | delOp
deriving DecidableEq, Repr

/-- Apply one operation on `key` to the store. -/
def applyOp (key : List Nat) (st : Store) : KVOp → Store
  | KVOp.putOp v => (Hyperion.put st key v).1
  | KVOp.delOp => (Hyperion.del st key).1

/-- Run a sequence of operations on `key`. -/
def runOps (key : List Nat) : Store → List KVOp → Store
  | st, [] => st
  | st, op :: rest => runOps key (applyOp key st op) rest

/-- The `(index, found)` pair of `find` for a probe key against the
current store (the lookup both `get` and `del` perform). -/
def findK (st : Store) (key : List Nat) : Nat × Bool :=
  st.index.find (Index.hash key) key.length (keyEq st.arena (Index.hash key) key)

/-- When `find` misses, no slot matches at all (true of every reachable
state: a key's slot is never beyond the first `EMPTY` of its probe
chain). -/
def NoHiddenMatch (st : Store) (key : List Nat) : Prop :=
  (findK st key).2 = false → ∀ q, q < st.index.capacity → ¬ Matches st key q

instance (st : Store) (key : List Nat) : Decidable (NoHiddenMatch st key) := by
  unfold NoHiddenMatch
  infer_instance

/-- Guard for the amended independence claim: each `put` must not wrap the
32-bit cursor, and must not evict a live slot of another key (its chosen
slot is either a match for `key` or a non-valid slot — an `EMPTY` or a
recycled tombstone).  Eviction happens only when the probe loop saturates
without finding an `EMPTY` slot or tombstone. -/
def opGuard (key : List Nat) (st : Store) : KVOp → Bool
  | KVOp.putOp v =>
    decide (st.arena.cursor + neededSize key v < 4294967296) &&
    ((putFind st key v).2 ||
      !(st.index.slots.getD (putFind st key v).1 Slot.emptySlot).isValid)
  | KVOp.delOp => true

def opsGuard (key : List Nat) : Store → List KVOp → Bool
  | _, [] => true
  | st, op :: rest => opGuard key st op && opsGuard key (applyOp key st op) rest

/-- `keyEq` depends on the arena only through the record at the slot's
offset. -/
theorem keyEq_entry_congr {a a2 : Arena} (g : Nat) (k : List Nat) (s : Slot)
    (h : a2.entryAt s.offset = a.entryAt s.offset) :
    keyEq a2 g k s = keyEq a g k s := by
  unfold keyEq
  rw [h]

/-- Two keys that both deep-compare equal against the same slot are the
same key. -/
theorem keyEq_both {a : Arena} {g1 g2 : Nat} {k1 k2 : List Nat} {s : Slot}
    (h1 : keyEq a g1 k1 s = true) (h2 : keyEq a g2 k2 s = true) : k1 = k2 := by
  unfold keyEq at h1 h2
  by_cases hv : s.isValid = true
  · rw [if_pos hv] at h1 h2
    rcases he : a.entryAt s.offset with _ | e <;> rw [he] at h1 h2
    · exact Bool.noConfusion h1
    · simp only [Bool.and_eq_true, decide_eq_true_eq] at h1 h2
      obtain ⟨⟨-, hl1⟩, ht1⟩ := h1
      obtain ⟨⟨-, hl2⟩, ht2⟩ := h2
      have hlen : k1.length = k2.length := by omega
      rw [← ht1, ← ht2, hlen]
  · rw [if_neg hv] at h1
    exact Bool.noConfusion h1

theorem slotMatch_not_valid {tag klen : Nat} {a : Arena} {g : Nat}
    {key : List Nat} {s : Slot} (h : s.isValid = false) :
    slotMatch tag klen (keyEq a g key) s = false := by
  simp [slotMatch, keyEq, h]

/-- The freshly written slot of a `put` of `k1` never matches a different
key `k2`. -/
theorem keyEq_newSlot_ne (st : Store) (k1 v k2 : List Nat) (g : Nat)
    (hk : k1.length ≤ 255) (hne : k1 ≠ k2)
    (hcur : st.arena.cursor < Slot.OFF_TOMB) :
    keyEq (putArena st k1 v) g k2 (putNewSlot st k1 v) = false := by
  unfold keyEq
  rw [if_pos (by simp only [putNewSlot, Slot.isValid, decide_eq_true_eq]; exact hcur)]
  have hlook : (putArena st k1 v).entryAt (putNewSlot st k1 v).offset
      = some (putEntry k1 v) := by
    simp only [putArena, putNewSlot, Arena.entryAt]
    exact lookup_cons_self
  rw [hlook]
  by_contra hc
  rw [Bool.not_eq_false, Bool.and_eq_true, Bool.and_eq_true] at hc
  obtain ⟨⟨-, hklen⟩, htake⟩ := hc
  simp only [putEntry, decide_eq_true_eq] at hklen htake
  rw [Nat.mod_eq_of_lt (by omega)] at hklen
  rw [← hklen, List.take_left] at htake
  exact hne htake

/-- Clearing the low three bits of a 32-bit value rounds it down to a
multiple of 8. -/
theorem and_low3_clear (x : Nat) (hx : x < 4294967296) :
    x &&& 4294967288 = x / 8 * 8 := by
  refine Nat.eq_of_testBit_eq fun i => ?_
  rw [Nat.testBit_and]
  have hc : (4294967288 : Nat) = (2 ^ 32 - 1) ^^^ (2 ^ 3 - 1) := by decide
  rw [hc, Nat.testBit_xor, Nat.testBit_two_pow_sub_one, Nat.testBit_two_pow_sub_one]
  have hdiv : x / 8 * 8 = x >>> 3 <<< 3 := by
    rw [Nat.shiftRight_eq_div_pow, Nat.shiftLeft_eq]
  rw [hdiv, Nat.testBit_shiftLeft, Nat.testBit_shiftRight]
  by_cases h3 : 3 ≤ i
  · by_cases h32 : i < 32
    · rw [show 3 + (i - 3) = i by omega]
      simp [h3, h32, show ¬ i < 3 by omega]
    · have h232 : (4294967296 : Nat) ≤ 2 ^ i := by
        calc (4294967296 : Nat) = 2 ^ 32 := by norm_num
        _ ≤ 2 ^ i := Nat.pow_le_pow_right (by omega) (by omega)
      have hb : x.testBit i = false :=
        Nat.testBit_lt_two_pow (lt_of_lt_of_le hx h232)
      rw [show 3 + (i - 3) = i by omega, hb]
      simp
  · simp [show ¬ 3 ≤ i by omega, show i < 32 by omega, show i < 3 by omega]

theorem neededSize_lower {key val : List Nat} (hk : key.length ≤ MAX_KEY)
    (hv : val.length ≤ MAX_VAL) : 8 ≤ neededSize key val := by
  have hkb : key.length ≤ 255 := hk
  have hvb : val.length ≤ 65535 := hv
  unfold neededSize
  rw [Nat.mod_eq_of_lt (by omega), Nat.mod_eq_of_lt (by omega),
    and_low3_clear _ (by omega)]
  omega

/-- Every `put` whose cursor bump does not wrap preserves freshness of
slot offsets. -/
theorem fresh_put (st : Store) (key val : List Nat)
    (hFresh : FreshOffsets st)
    (hwrap : st.arena.cursor + neededSize key val < 4294967296) :
    FreshOffsets (Hyperion.put st key val).1 := by
  by_cases hk : key.length ≤ MAX_KEY
  · by_cases hv : val.length ≤ MAX_VAL
    · have hmod : (st.arena.cursor + neededSize key val) % 4294967296
          = st.arena.cursor + neededSize key val := Nat.mod_eq_of_lt hwrap
      by_cases ha : st.arena.size < (st.arena.cursor + neededSize key val) % 4294967296
      · rw [put_alloc_fail hk hv ha]
        intro s hs hvalid
        have := hFresh s hs hvalid
        simp only [hmod]
        omega
      · rw [put_alloc_ok hk hv (by omega)]
        intro s hs hvalid
        simp only [putArena, hmod]
        rcases List.mem_or_eq_of_mem_set hs with hmem | rfl
        · have := hFresh s hmem hvalid
          omega
        · have := neededSize_lower hk hv
          simp only [putNewSlot]
          omega
    · have heq : Hyperion.put st key val = (st, Status.ValTooLong) := by
        unfold Hyperion.put
        rw [if_neg (Nat.not_lt.mpr hk), if_pos (by omega)]
      rw [heq]
      exact hFresh
  · have heq : Hyperion.put st key val = (st, Status.KeyTooLong) := by
      unfold Hyperion.put
      rw [if_pos (by omega)]
    rw [heq]
    exact hFresh

/-- `del` preserves freshness of slot offsets. -/
theorem fresh_del (st : Store) (key : List Nat) (hFresh : FreshOffsets st) :
    FreshOffsets (Hyperion.del st key).1 := by
  simp only [Hyperion.del]
  split
  · intro s hs hvalid
    rcases List.mem_or_eq_of_mem_set hs with hmem | rfl
    · exact hFresh s hmem hvalid
    · simp only [Slot.makeTombstone, Slot.OFF_TOMB] at hvalid ⊢
      omega
  · exact hFresh

/-- No slot of a fresh-offset store points at the current cursor (valid
slots point below it, sentinels above it). -/
theorem slot_offset_ne_cursor (st : Store) (hFresh : FreshOffsets st)
    (hcur : st.arena.cursor < Slot.OFF_TOMB) (q : Nat) :
    (st.index.slots.getD q Slot.emptySlot).offset ≠ st.arena.cursor := by
  by_cases hq : q < st.index.slots.length
  · have hmem : st.index.slots.getD q Slot.emptySlot ∈ st.index.slots := by
      rw [List.getD_eq_getElem?_getD, List.getElem?_eq_getElem hq]
      exact List.getElem_mem hq
    by_cases hvalid : (st.index.slots.getD q Slot.emptySlot).offset < Slot.OFF_TOMB
    · have := hFresh _ hmem hvalid
      omega
    · omega
  · rw [List.getD_eq_default _ _ (by omega)]
    simp only [Slot.emptySlot, Slot.OFF_EMPTY, Slot.OFF_TOMB] at hcur ⊢
    omega

/-- Central frame lemma: replacing the slot at one position `p` by a
non-empty slot, in a way that changes no slot's match status for `k2` and
no record readable through an unchanged slot, preserves the outcome of
`get(k2)` and the found flag of its lookup. -/
theorem get_frame (st st2 : Store) (k2 : List Nat) (p : Nat) (ns : Slot) (w : Nat)
    (hmask : st.index.mask = 2 ^ w - 1)
    (hcap : st.index.capacity = 2 ^ w)
    (hlen : st.index.slots.length = st.index.capacity)
    (hcap2 : st2.index.capacity = st.index.capacity)
    (hmask2 : st2.index.mask = st.index.mask)
    (hslots2 : st2.index.slots = st.index.slots.set p ns)
    (hplen : p < st.index.slots.length)
    (hnsne : ns.isEmptySlot = false)
    (hMq : ∀ q, slotMatch (Index.hash k2 >>> 24) k2.length
        (keyEq st2.arena (Index.hash k2) k2) (st2.index.slots.getD q Slot.emptySlot)
      = slotMatch (Index.hash k2 >>> 24) k2.length
        (keyEq st.arena (Index.hash k2) k2) (st.index.slots.getD q Slot.emptySlot))
    (hpold : slotMatch (Index.hash k2 >>> 24) k2.length
        (keyEq st.arena (Index.hash k2) k2) (st.index.slots.getD p Slot.emptySlot)
      = false)
    (hread : ∀ q, q ≠ p →
      st2.arena.entryAt ((st.index.slots.getD q Slot.emptySlot).offset)
        = st.arena.entryAt ((st.index.slots.getD q Slot.emptySlot).offset))
    (hNH : NoHiddenMatch st k2) :
    (∀ buf, Hyperion.get st2 k2 buf = Hyperion.get st k2 buf) ∧
    (st2.index.find (Index.hash k2) k2.length
      (keyEq st2.arena (Index.hash k2) k2)).2
      = (st.index.find (Index.hash k2) k2.length
        (keyEq st.arena (Index.hash k2) k2)).2 := by
  have h2w : 0 < 2 ^ w := Nat.pos_pow_of_pos w (by omega)
  have hsloteq : ∀ q, q ≠ p →
      st2.index.slots.getD q Slot.emptySlot = st.index.slots.getD q Slot.emptySlot := by
    intro q hq
    rw [hslots2]
    exact getD_set_ne fun he => hq he.symm
  have hppos : st2.index.slots.getD p Slot.emptySlot = ns := by
    rw [hslots2]
    exact getD_set_self hplen
  have hchar2 : st2.index.find (Index.hash k2) k2.length
      (keyEq st2.arena (Index.hash k2) k2)
      = findList st2.index.slots
        (slotMatch (Index.hash k2 >>> 24) k2.length
          (keyEq st2.arena (Index.hash k2) k2))
        (probeList st.index.mask (Index.hash k2 &&& st.index.mask) st.index.capacity)
        none
        (((Index.hash k2 &&& st.index.mask) + st.index.capacity) &&& st.index.mask) := by
    have hc := find_eq_findList st2.index (Index.hash k2) k2.length
      (keyEq st2.arena (Index.hash k2) k2) w (by rw [hmask2]; exact hmask)
    rw [hmask2, hcap2] at hc
    exact hc
  have hchar1 := find_eq_findList st.index (Index.hash k2) k2.length
    (keyEq st.arena (Index.hash k2) k2) w hmask
  rcases hf1 : st.index.find (Index.hash k2) k2.length
      (keyEq st.arena (Index.hash k2) k2) with ⟨g, fg⟩
  rw [hf1] at hchar1
  cases fg
  · -- not found in `st`: no slot matches anywhere, so not found in `st2`
    have hnm : ∀ q, slotMatch (Index.hash k2 >>> 24) k2.length
        (keyEq st.arena (Index.hash k2) k2)
        (st.index.slots.getD q Slot.emptySlot) = false := by
      intro q
      by_cases hqlen : q < st.index.slots.length
      · have hq := hNH (by rw [show findK st k2 = (g, false) from hf1]) q (by omega)
        by_contra hc
        rw [Bool.not_eq_false] at hc
        exact hq hc
      · rw [List.getD_eq_default _ _ (by omega)]
        exact slotMatch_emptySlot _ _ _ _ _
    have hnm2 : ∀ q, slotMatch (Index.hash k2 >>> 24) k2.length
        (keyEq st2.arena (Index.hash k2) k2)
        (st2.index.slots.getD q Slot.emptySlot) = false := by
      intro q
      rw [hMq q]
      exact hnm q
    have hf2 : (st2.index.find (Index.hash k2) k2.length
        (keyEq st2.arena (Index.hash k2) k2)).2 = false :=
      findAux_snd_false _ _ _ _ _ hnm2 _ _ _
    refine ⟨?_, by rw [hf2]⟩
    intro buf
    have hcond2 : ¬ ((st2.index.find (Index.hash k2) k2.length
        (keyEq st2.arena (Index.hash k2) k2)).2 = true) := by
      rw [hf2]
      exact Bool.false_ne_true
    have hcond1 : ¬ ((st.index.find (Index.hash k2) k2.length
        (keyEq st.arena (Index.hash k2) k2)).2 = true) := by
      rw [hf1]
      exact Bool.false_ne_true
    simp only [Hyperion.get]
    rw [if_neg hcond2, if_neg hcond1]
  · -- found at `g` in `st`: the same walk finds `g` in `st2`
    obtain ⟨pre, post, hsplit, hpre, hgemp, hgtomb, hgm⟩ :=
      findList_found_decomp st.index.slots _ (slotMatch_tomb _ _ _ _ _) _ _ _ _
        hchar1.symm
    have hgp : g ≠ p := by
      intro he
      rw [he, hpold] at hgm
      exact Bool.noConfusion hgm
    have hW2 : findList st2.index.slots
        (slotMatch (Index.hash k2 >>> 24) k2.length
          (keyEq st2.arena (Index.hash k2) k2))
        (probeList st.index.mask (Index.hash k2 &&& st.index.mask) st.index.capacity)
        none
        (((Index.hash k2 &&& st.index.mask) + st.index.capacity) &&& st.index.mask)
        = (g, true) := by
      rw [hsplit]
      refine findList_foundConstruct _ _ (slotMatch_tomb _ _ _ _ _) pre post none _ g
        ?_ ?_ ?_
      · intro q hq
        refine ⟨?_, by rw [hMq q]; exact (hpre q hq).2⟩
        by_cases hqp : q = p
        · rw [hqp, hppos]
          exact hnsne
        · rw [hsloteq q hqp]
          exact (hpre q hq).1
      · rw [hsloteq g hgp]
        exact hgemp
      · rw [hMq g]
        exact hgm
    have hf2 : st2.index.find (Index.hash k2) k2.length
        (keyEq st2.arena (Index.hash k2) k2) = (g, true) := by
      rw [hchar2, hW2]
    refine ⟨?_, by rw [hf2]⟩
    intro buf
    have hcond2 : (st2.index.find (Index.hash k2) k2.length
        (keyEq st2.arena (Index.hash k2) k2)).2 = true := by
      rw [hf2]
    have hcond1 : (st.index.find (Index.hash k2) k2.length
        (keyEq st.arena (Index.hash k2) k2)).2 = true := by
      rw [hf1]
    simp only [Hyperion.get]
    rw [if_pos hcond2, if_pos hcond1]
    rw [hf2, hf1]
    dsimp only
    rw [hsloteq g hgp, hread g hgp]

theorem makeTombstone_not_empty (s : Slot) :
    s.makeTombstone.isEmptySlot = false :=
  Slot.isEmptySlot_eq_false_of_isTombstone (makeTombstone_isTombstone s)

theorem slotMatch_false_of_keyEq_false {tag klen : Nat} {eq : Slot → Bool} {s : Slot}
    (h : eq s = false) : slotMatch tag klen eq s = false := by
  simp [slotMatch, h]

/-- A state change that preserves the found flag of `find(k2)` and every
slot's match status for `k2` preserves the no-hidden-match invariant. -/
theorem noHiddenMatch_transfer (st st2 : Store) (k2 : List Nat)
    (hcap : st2.index.capacity = st.index.capacity)
    (hflag : (findK st2 k2).2 = (findK st k2).2)
    (hMq : ∀ q, slotMatch (Index.hash k2 >>> 24) k2.length
        (keyEq st2.arena (Index.hash k2) k2) (st2.index.slots.getD q Slot.emptySlot)
      = slotMatch (Index.hash k2 >>> 24) k2.length
        (keyEq st.arena (Index.hash k2) k2) (st.index.slots.getD q Slot.emptySlot))
    (hNH : NoHiddenMatch st k2) : NoHiddenMatch st2 k2 := by
  intro hf q hq
  have h1 : (findK st k2).2 = false := by rw [← hflag]; exact hf
  have h2 := hNH h1 q (hcap ▸ hq)
  intro hm
  apply h2
  unfold Matches at hm ⊢
  rw [← hMq q]
  exact hm

/-- Frame property of `del(k1)` for a distinct key `k2`: the result of
`get(k2)` and the no-hidden-match invariant for `k2` are preserved. -/
theorem frame_del (st : Store) (k1 k2 : List Nat)
    (hne : k1 ≠ k2) (hWF : StoreWF st) (hNH : NoHiddenMatch st k2) :
    (∀ buf, Hyperion.get (Hyperion.del st k1).1 k2 buf = Hyperion.get st k2 buf) ∧
    NoHiddenMatch (Hyperion.del st k1).1 k2 := by
  obtain ⟨⟨w, hmask, hcap⟩, hlen, hc8, hclt, hslt⟩ := hWF
  have h2w : 0 < 2 ^ w := Nat.pos_pow_of_pos w (by omega)
  by_cases hf : (st.index.find (Index.hash k1) k1.length
      (keyEq st.arena (Index.hash k1) k1)).2 = true
  · have hshape : (Hyperion.del st k1).1 = { st with index := { st.index with
        slots := st.index.slots.set
          (st.index.find (Index.hash k1) k1.length
            (keyEq st.arena (Index.hash k1) k1)).1
          ((st.index.slots.getD
            (st.index.find (Index.hash k1) k1.length
              (keyEq st.arena (Index.hash k1) k1)).1
            Slot.emptySlot).makeTombstone) } } := by
      simp only [Hyperion.del]
      rw [if_pos hf]
    have hchar := find_eq_findList st.index (Index.hash k1) k1.length
      (keyEq st.arena (Index.hash k1) k1) w hmask
    rcases hfd : st.index.find (Index.hash k1) k1.length
        (keyEq st.arena (Index.hash k1) k1) with ⟨g, f1⟩
    rw [hfd] at hf hshape hchar
    simp only at hf hshape
    subst hf
    have hglen : g < st.index.slots.length := by
      have hb := find_fst_le st.index (Index.hash k1) k1.length
        (keyEq st.arena (Index.hash k1) k1)
      rw [hfd] at hb
      have hb2 : g ≤ st.index.mask := hb
      rw [hmask] at hb2
      rw [hlen, hcap]
      omega
    obtain ⟨pre, post, hsplit, hpre, hgemp, hgtomb, hgm⟩ :=
      findList_found_decomp st.index.slots _ (slotMatch_tomb _ _ _ _ _) _ _ _ _
        hchar.symm
    have hkeq1 : keyEq st.arena (Index.hash k1) k1
        (st.index.slots.getD g Slot.emptySlot) = true := by
      simp only [slotMatch, Bool.and_eq_true] at hgm
      exact hgm.2
    have hpold : slotMatch (Index.hash k2 >>> 24) k2.length
        (keyEq st.arena (Index.hash k2) k2)
        (st.index.slots.getD g Slot.emptySlot) = false := by
      by_contra hc
      rw [Bool.not_eq_false] at hc
      simp only [slotMatch, Bool.and_eq_true] at hc
      exact hne (keyEq_both hkeq1 hc.2)
    rw [hshape]
    have hMq : ∀ q, slotMatch (Index.hash k2 >>> 24) k2.length
        (keyEq st.arena (Index.hash k2) k2)
        ((st.index.slots.set g
          (st.index.slots.getD g Slot.emptySlot).makeTombstone).getD q Slot.emptySlot)
      = slotMatch (Index.hash k2 >>> 24) k2.length
        (keyEq st.arena (Index.hash k2) k2)
        (st.index.slots.getD q Slot.emptySlot) := by
      intro q
      by_cases hq : q = g
      · subst hq
        rw [getD_set_self hglen, slotMatch_makeTombstone, hpold]
      · rw [getD_set_ne fun he => hq he.symm]
    have hgf := get_frame st { st with index := { st.index with
        slots := st.index.slots.set g
          (st.index.slots.getD g Slot.emptySlot).makeTombstone } } k2 g
      ((st.index.slots.getD g Slot.emptySlot).makeTombstone) w
      hmask hcap hlen rfl rfl rfl hglen (makeTombstone_not_empty _)
      hMq hpold (fun q _ => rfl) hNH
    exact ⟨hgf.1, noHiddenMatch_transfer st { st with index := { st.index with
      slots := st.index.slots.set g
        (st.index.slots.getD g Slot.emptySlot).makeTombstone } } k2
      rfl hgf.2 hMq hNH⟩
  · have hshape : (Hyperion.del st k1).1 = st := by
      simp only [Hyperion.del]
      rw [if_neg hf]
    rw [hshape]
    exact ⟨fun buf => rfl, hNH⟩

/-- Frame property of a guarded `put(k1, v)` for a distinct key `k2`: if
the cursor bump does not wrap and the chosen slot is not a live eviction
victim, the result of `get(k2)` and the no-hidden-match invariant for `k2`
are preserved. -/
theorem frame_put (st : Store) (k1 v k2 : List Nat)
    (hne : k1 ≠ k2) (hWF : StoreWF st) (hFresh : FreshOffsets st)
    (hNH : NoHiddenMatch st k2)
    (hguard : opGuard k1 st (KVOp.putOp v) = true) :
    (∀ buf, Hyperion.get (Hyperion.put st k1 v).1 k2 buf = Hyperion.get st k2 buf) ∧
    NoHiddenMatch (Hyperion.put st k1 v).1 k2 := by
  obtain ⟨⟨w, hmask, hcap⟩, hlen, hc8, hclt, hslt⟩ := hWF
  have h2w : 0 < 2 ^ w := Nat.pos_pow_of_pos w (by omega)
  simp only [opGuard, Bool.and_eq_true, Bool.or_eq_true, decide_eq_true_eq,
    Bool.not_eq_true'] at hguard
  obtain ⟨hwrap, hgor⟩ := hguard
  by_cases hk : k1.length ≤ MAX_KEY
  · by_cases hv : v.length ≤ MAX_VAL
    · by_cases ha : st.arena.size < (st.arena.cursor + neededSize k1 v) % 4294967296
      · rw [put_alloc_fail hk hv ha]
        exact ⟨fun buf => rfl, hNH⟩
      · have hcurtomb : st.arena.cursor < 4294967294 := by
          have h8 := neededSize_lower hk hv
          omega
        have hple : (putFind st k1 v).1 ≤ st.index.mask :=
          find_fst_le st.index (Index.hash k1) k1.length
            (keyEq (putArena st k1 v) (Index.hash k1) k1)
        have hplen : (putFind st k1 v).1 < st.index.slots.length := by
          rw [hmask] at hple
          rw [hlen, hcap]
          omega
        have hreadAll : ∀ q, (putArena st k1 v).entryAt
            ((st.index.slots.getD q Slot.emptySlot).offset)
          = st.arena.entryAt ((st.index.slots.getD q Slot.emptySlot).offset) := by
          intro q
          simp only [putArena, Arena.entryAt]
          exact lookup_cons_ne (slot_offset_ne_cursor st hFresh hcurtomb q)
        have hpold : slotMatch (Index.hash k2 >>> 24) k2.length
            (keyEq st.arena (Index.hash k2) k2)
            (st.index.slots.getD (putFind st k1 v).1 Slot.emptySlot) = false := by
          rcases hgor with hfound | hnv
          · have hchar : putFind st k1 v = findList st.index.slots
                (slotMatch (Index.hash k1 >>> 24) k1.length
                  (keyEq (putArena st k1 v) (Index.hash k1) k1))
                (probeList st.index.mask (Index.hash k1 &&& st.index.mask)
                  st.index.capacity) none
                (((Index.hash k1 &&& st.index.mask) + st.index.capacity)
                  &&& st.index.mask) := by
              unfold putFind
              exact find_eq_findList _ _ _ _ w hmask
            have hres : findList st.index.slots
                (slotMatch (Index.hash k1 >>> 24) k1.length
                  (keyEq (putArena st k1 v) (Index.hash k1) k1))
                (probeList st.index.mask (Index.hash k1 &&& st.index.mask)
                  st.index.capacity) none
                (((Index.hash k1 &&& st.index.mask) + st.index.capacity)
                  &&& st.index.mask) = ((putFind st k1 v).1, true) := by
              rw [← hfound, ← hchar]
            obtain ⟨pre, post, hsplit, hpre, hjemp, hjtomb, hjm⟩ :=
              findList_found_decomp st.index.slots _ (slotMatch_tomb _ _ _ _ _)
                _ _ _ _ hres
            have hkeq1 : keyEq (putArena st k1 v) (Index.hash k1) k1
                (st.index.slots.getD (putFind st k1 v).1 Slot.emptySlot) = true := by
              simp only [slotMatch, Bool.and_eq_true] at hjm
              exact hjm.2
            rw [keyEq_entry_congr _ _ _ (hreadAll _)] at hkeq1
            by_contra hc
            rw [Bool.not_eq_false] at hc
            simp only [slotMatch, Bool.and_eq_true] at hc
            exact hne (keyEq_both hkeq1 hc.2)
          · exact slotMatch_not_valid hnv
        have hnsne : (putNewSlot st k1 v).isEmptySlot = false := by
          simp only [putNewSlot, Slot.isEmptySlot, Slot.OFF_EMPTY,
            beq_eq_false_iff_ne, ne_eq]
          omega
        rw [put_alloc_ok hk hv (by omega)]
        have hMq : ∀ q, slotMatch (Index.hash k2 >>> 24) k2.length
            (keyEq (putArena st k1 v) (Index.hash k2) k2)
            ((st.index.slots.set (putFind st k1 v).1
              (putNewSlot st k1 v)).getD q Slot.emptySlot)
          = slotMatch (Index.hash k2 >>> 24) k2.length
            (keyEq st.arena (Index.hash k2) k2)
            (st.index.slots.getD q Slot.emptySlot) := by
          intro q
          by_cases hq : q = (putFind st k1 v).1
          · subst hq
            rw [getD_set_self hplen,
              slotMatch_false_of_keyEq_false
                (keyEq_newSlot_ne st k1 v k2 _ hk hne hcurtomb), hpold]
          · rw [getD_set_ne fun he => hq he.symm]
            unfold slotMatch
            rw [keyEq_entry_congr _ _ _ (hreadAll q)]
        have hgf := get_frame st
          { arena := putArena st k1 v
            index := { st.index with
              slots := st.index.slots.set (putFind st k1 v).1 (putNewSlot st k1 v) } }
          k2 (putFind st k1 v).1 (putNewSlot st k1 v) w
          hmask hcap hlen rfl rfl rfl hplen hnsne hMq hpold
          (fun q _ => hreadAll q) hNH
        exact ⟨hgf.1, noHiddenMatch_transfer st
          { arena := putArena st k1 v
            index := { st.index with
              slots := st.index.slots.set (putFind st k1 v).1 (putNewSlot st k1 v) } }
          k2 rfl hgf.2 hMq hNH⟩
    · have heq : Hyperion.put st k1 v = (st, Status.ValTooLong) := by
        unfold Hyperion.put
        rw [if_neg (Nat.not_lt.mpr hk), if_pos (by omega)]
      rw [heq]
      exact ⟨fun buf => rfl, hNH⟩
  · have heq : Hyperion.put st k1 v = (st, Status.KeyTooLong) := by
      unfold Hyperion.put
      rw [if_pos (by omega)]
    rw [heq]
    exact ⟨fun buf => rfl, hNH⟩

/-- One guarded operation on `k1` preserves `get(k2)`, well-formedness,
fresh offsets, and the no-hidden-match invariant for `k2`. -/
theorem frame_step (st : Store) (k1 k2 : List Nat) (op : KVOp)
    (hne : k1 ≠ k2) (hWF : StoreWF st) (hFresh : FreshOffsets st)
    (hNH : NoHiddenMatch st k2) (hguard : opGuard k1 st op = true) :
    (∀ buf, Hyperion.get (applyOp k1 st op) k2 buf = Hyperion.get st k2 buf) ∧
    StoreWF (applyOp k1 st op) ∧ FreshOffsets (applyOp k1 st op) ∧
    NoHiddenMatch (applyOp k1 st op) k2 := by
  cases op with
  | putOp v =>
    have hwrap : st.arena.cursor + neededSize k1 v < 4294967296 := by
      simp only [opGuard, Bool.and_eq_true, decide_eq_true_eq] at hguard
      exact hguard.1
    have hfp := frame_put st k1 v k2 hne hWF hFresh hNH hguard
    exact ⟨hfp.1, storeWF_put st k1 v hWF, fresh_put st k1 v hFresh hwrap, hfp.2⟩
  | delOp =>
    have hfd := frame_del st k1 k2 hne hWF hNH
    exact ⟨hfd.1, storeWF_del st k1 hWF, fresh_del st k1 hFresh, hfd.2⟩

theorem indep_aux (k1 k2 : List Nat) (hne : k1 ≠ k2) :
    ∀ (ops : List KVOp) (st : Store), StoreWF st → FreshOffsets st →
      NoHiddenMatch st k2 → opsGuard k1 st ops = true →
      ∀ buf, Hyperion.get (runOps k1 st ops) k2 buf = Hyperion.get st k2 buf
  | [], _, _, _, _, _, _ => rfl
  | op :: rest, st, hWF, hFresh, hNH, hguard, buf => by
    simp only [opsGuard, Bool.and_eq_true] at hguard
    have hstep := frame_step st k1 k2 op hne hWF hFresh hNH hguard.1
    have hrec := indep_aux k1 k2 hne rest (applyOp k1 st op) hstep.2.1
      hstep.2.2.1 hstep.2.2.2 hguard.2 buf
    calc Hyperion.get (runOps k1 st (op :: rest)) k2 buf
        = Hyperion.get (runOps k1 (applyOp k1 st op) rest) k2 buf := rfl
      _ = Hyperion.get (applyOp k1 st op) k2 buf := hrec
      _ = Hyperion.get st k2 buf := hstep.1 buf

instance (st : Store) : Decidable (FreshOffsets st) := by
  unfold FreshOffsets
  infer_instance

/-- C4 (amended): for distinct keys `k1 ≠ k2`, in a well-formed state with
fresh slot offsets and no hidden match for `k2`, any sequence of `put`/
`delete` operations on `k1` in which no `put` wraps the 32-bit cursor or
evicts a live slot (its chosen slot is either a match or a non-valid slot)
leaves the result of `get(k2)` unchanged. -/
theorem C4_independence (st : Store) (k1 k2 : List Nat) (ops : List KVOp)
    (hne : k1 ≠ k2) (hWF : StoreWF st) (hFresh : FreshOffsets st)
    (hNH : NoHiddenMatch st k2) (hguard : opsGuard k1 st ops = true) :
    ∀ buf, Hyperion.get (runOps k1 st ops) k2 buf = Hyperion.get st k2 buf :=
  indep_aux k1 k2 hne ops st hWF hFresh hNH hguard

/-- Eight single-byte keys `[0]`..`[7]` inserted into a store whose index
has capacity 8: every slot is live. -/
def c4Store8 : Store :=
  (Hyperion.put (Hyperion.put (Hyperion.put (Hyperion.put (Hyperion.put
    (Hyperion.put (Hyperion.put (Hyperion.put (Hyperion.create 1024 8)
      [0] [100]).1 [1] [101]).1 [2] [102]).1 [3] [103]).1 [4] [104]).1
      [5] [105]).1 [6] [106]).1 [7] [107]).1

/-- C4 counterexample to the unconditional claim: with the 8-slot index
saturated by keys `[0]`..`[7]`, a single `put` on the distinct key `[8]`
(which succeeds) evicts the slot of key `[0]`, so `get([0])` changes from
`(OK, [100])` to `(NotFound, [])`. -/
theorem C4_counterexample :
    ([8] : List Nat) ≠ [0] ∧
    Hyperion.get c4Store8 [0] [] = (Status.OK, [100]) ∧
    (Hyperion.put c4Store8 [8] [108]).2 = Status.OK ∧
    Hyperion.get (runOps [8] c4Store8 [KVOp.putOp [108]]) [0] []
      = (Status.NotFound, []) := by
  decide

/-- A small store holding key `[2]`, used to instantiate the amended C4
theorem. -/
def c4wStore : Store := (Hyperion.put (Hyperion.create 1024 8) [2] [9]).1

set_option maxRecDepth 4000 in
theorem C4_independence_witness :
    Hyperion.get (runOps [1] c4wStore [KVOp.putOp [7], KVOp.delOp]) [2] []
      = Hyperion.get c4wStore [2] [] :=
  C4_independence c4wStore [1] [2] [KVOp.putOp [7], KVOp.delOp] (by decide)
    ⟨⟨3, by decide, by decide⟩, by decide, by decide, by decide, by decide⟩
    (by decide) (by decide) (by decide) []
